import Mathlib

/-!
# Verification of the QuadtreeAmogufier engine

Shallow embedding of the quadtree decomposition engine (`Quadtree.cpp`,
current revision: the one with `SubdivisionChecker::GetColor` / `Merge` and
`Quadtree::RenderLeaf`), the pixel-surface primitives (`Image.cpp`, current
revision `part_007`, with the integer-arithmetic `scale`/`blend`/`overlay`),
and the frame-task scheduler (`main.cpp`, revision `part_004`, with
`QuadtreeBuilder` and `getFrameBuilder`).

Modelling conventions:
* C++ `int` quantities that are provably non-negative on every path the
  engine takes (widths, heights, channel counts, tile positions, byte
  values) are modelled as `ℕ`; overlay offsets are modelled as `ℤ` because
  `Image::overlay` explicitly clips negative offsets.
* `double` arithmetic (`GetBestSplitCount`, the mean computations in
  `GetColor`, `std::round`) is modelled exactly over `ℚ`.  Every concrete
  input used in a theorem below keeps all intermediate values dyadic or
  exactly representable, so the rational model and IEEE doubles agree there.
* A pixel surface is a triple of dimensions together with a total function
  `data : x → y → channel → ℕ`; the C++ buffer indexing `(x + y*w)*channels + c`
  is in bijection with in-range `(x, y, c)` triples, and all the loops
  modelled below write each destination cell at most once, so the
  functional view is exact for in-range accesses.
-/

set_option linter.unusedVariables false

/-- `RgbColor` from `Image.h`: three byte channels. -/
structure RgbColor where
  r : ℕ
  g : ℕ
  b : ℕ
deriving DecidableEq

/-- `Rect` from `Image.h`.  The engine only ever builds rectangles with
non-negative coordinates and extents (the root tile starts at `(0,0)` and
quadrants stay inside their parent), so the `int` fields are modelled as `ℕ`. -/
structure Rect where
  x : ℕ
  y : ℕ
  w : ℕ
  h : ℕ
deriving DecidableEq

/-- A pixel surface (`struct Image` of `Image.h`): dimensions, channel count
and the pixel payload as a total function (see the header comment). -/
structure Image where
  width : ℕ
  height : ℕ
  channels : ℕ
  data : ℕ → ℕ → ℕ → ℕ

/-- `scale(T &val, uint8_t s)` of the current `Image.cpp` (`part_007`,
lines 18–22): `val = old * s >> 8`, i.e. truncated division by 256. -/
def scaleShift8 (v s : ℕ) : ℕ := v * s / 256

/-- `scale(T &val, uint8_t s)` of the previous `Image.cpp` revision
(`part_006`, lines 18–22, same text as `src/Image.cpp`): `val = old * s / 255`. -/
def scaleDiv255 (v s : ℕ) : ℕ := v * s / 255

/-- `Image::colorMask(uint8_t r, uint8_t g, uint8_t b)` (current `Image.cpp`,
lines 113–121): the loop `for (i = 0; i < mData.size(); i += mChannels)`
scales buffer offsets `i, i+1, i+2`, i.e. channels 0, 1, 2 of every pixel
(the function asserts `mChannels == 3`; for a 3- or 4-channel surface the
loop touches exactly the channels written below). -/
def Image.colorMask (img : Image) (r g b : ℕ) : Image :=
  { img with data := fun X Y c =>
      if c = 0 then scaleShift8 (img.data X Y 0) r
      else if c = 1 then scaleShift8 (img.data X Y 1) g
      else if c = 2 then scaleShift8 (img.data X Y 2) b
      else img.data X Y c }

/-- `Image::colorMaskNew(uint8_t, uint8_t, uint8_t)` (current `Image.cpp`,
lines 129–133): copies the surface and masks the copy.  In the pure
embedding the copy is implicit; the original value is untouched by
construction, which is the "leaves the source unchanged" part of the
contract. -/
def Image.colorMaskNew (img : Image) (r g b : ℕ) : Image :=
  img.colorMask r g b

/-- The `part_006` / `src/Image.cpp` variant of the byte `colorMask`, whose
`scale` divides by 255 instead of shifting by 8. -/
def Image.colorMaskDiv255 (img : Image) (r g b : ℕ) : Image :=
  { img with data := fun X Y c =>
      if c = 0 then scaleDiv255 (img.data X Y 0) r
      else if c = 1 then scaleDiv255 (img.data X Y 1) g
      else if c = 2 then scaleDiv255 (img.data X Y 2) b
      else img.data X Y c }

/-- `Image::overlay(const Image &source, int x, int y)` of the current
`Image.cpp` (`part_007`, lines 135–164).  The two loops run
`sy ∈ [max(0,-y), min(source.h, h - y))` and `sx ∈ [max(0,-x), min(source.w, w - x))`
(the `break`s implement the upper clips); the destination cell `(X, Y)` with
`X = sx + x`, `Y = sy + y` is therefore touched exactly when
`max(x,0) ≤ X < min(x + source.w, w)` and `max(y,0) ≤ Y < min(y + source.h, h)`,
and each destination cell is written at most once.  `blend` (lines 32–38)
computes `(alpha*src + invAlpha*dst) >> 8` with `alpha = srcAlpha + 1`,
`invAlpha = 256 - srcAlpha`; `fixedMult(a,b) = a*b/255` (line 40). -/
def Image.overlay (dst : Image) (source : Image) (x y : ℤ) : Image :=
  { dst with data := fun X Y c =>
      if (max x 0 ≤ (X : ℤ) ∧ (X : ℤ) < min (x + source.width) dst.width ∧
          max y 0 ≤ (Y : ℤ) ∧ (Y : ℤ) < min (y + source.height) dst.height) then
        let sx : ℕ := ((X : ℤ) - x).toNat
        let sy : ℕ := ((Y : ℤ) - y).toNat
        let srcAlpha : ℕ := if source.channels < 4 then 255 else source.data sx sy 3
        if srcAlpha = 255 then
          -- fast path: std::copy_n(srcPixel, mChannels, dstPixel)
          if c < dst.channels then source.data sx sy c else dst.data X Y c
        else
          let dstAlpha : ℕ := if dst.channels < 4 then 255 else dst.data X Y 3
          let outAlpha : ℕ := srcAlpha + dstAlpha * (255 - srcAlpha) / 255
          if outAlpha < 1 then
            -- std::fill_n(dstPixel, mChannels, uint8_t(0))
            if c < dst.channels then 0 else dst.data X Y c
          else
            if c < 3 then
              ((srcAlpha + 1) * source.data sx sy c + (256 - srcAlpha) * dst.data X Y c) / 256
            else if c = 3 ∧ 3 < dst.channels then outAlpha
            else dst.data X Y c
      else dst.data X Y c }

/-- `Image::rect(Rect r, RgbColor color)` (current `Image.cpp`, lines
166–175): writes `{color.r, color.g, color.b, 255}` into the clipped
intersection of `r` with the surface.  With `ℕ` coordinates the lower clips
`max(0, r.x)`, `max(0, r.y)` are the identity. -/
def Image.rect (img : Image) (r : Rect) (color : RgbColor) : Image :=
  { img with data := fun X Y c =>
      if (r.x ≤ X ∧ X < min (r.x + r.w) img.width ∧
          r.y ≤ Y ∧ Y < min (r.y + r.h) img.height ∧ c < img.channels) then
        if c = 0 then color.r else if c = 1 then color.g
        else if c = 2 then color.b else 255
      else img.data X Y c }

/-- `Image::resizeFastNew(int rw, int rh)` (current `Image.cpp`, lines
177–189): nearest-neighbour resample, `rx = (int)(x * (srcW/(double)rw))`
modelled as the exact `⌊x·srcW/rw⌋`. -/
def Image.resizeFastNew (img : Image) (rw rh : ℕ) : Image :=
  { width := rw, height := rh, channels := img.channels,
    data := fun X Y c => img.data (X * img.width / rw) (Y * img.height / rh) c }

/-! ## Tile partitioning (`Quadtree::ProcessFrame`, outer loop)

The current `Quadtree.cpp`, lines 189–216: `step = max(w,h) / splitCount`,
`errStep = max(w,h) - step*splitCount`, `err = errStep`, `size = step`, and
for each of the `splitCount` iterations the current `(pos, size)` tile is
processed, then `pos += size; err += errStep;
if (err >= splitCount) { size = step + 1; err -= splitCount; } else size = step;`. -/

/-- One-to-one translation of the tile loop; produces the `(pos, size)`
pairs in iteration order. -/
def splitLoop (S step errStep : ℕ) : ℕ → ℕ → ℕ → ℕ → List (ℕ × ℕ)
  | 0, _, _, _ => []
  | n + 1, pos, size, err =>
    (pos, size) ::
      (if S ≤ err + errStep then
        splitLoop S step errStep n (pos + size) (step + 1) (err + errStep - S)
      else
        splitLoop S step errStep n (pos + size) step (err + errStep))

/-- The tiles produced by the outer loop of `Quadtree::ProcessFrame` for a
frame whose split dimension is `D` and split count is `S`: `step = D / S`,
`errStep = D - step*S`, and both `size` and `err` start at those values
(`pos` starts at `bounds.x = 0`). -/
def splitTiles (D S : ℕ) : List (ℕ × ℕ) :=
  splitLoop S (D / S) (D - D / S * S) S 0 (D / S) (D - D / S * S)

/-- `GetBestSplitCount(const Image &leafImage, Rect bounds)` (current
`Quadtree.cpp`, lines 174–183), with the `double` computation carried out
exactly over `ℚ`:
`leafAR = leafW/leafH`, `w = bounds.w`, `h = bounds.h * leafAR`,
`bestAR = max(w,h)/min(w,h)`, `bestCount = ⌊bestAR⌋`, incremented when
`bestAR² > bestCount·(bestCount+1)`; returns `(bestCount, w > h)`. -/
def getBestSplitCount (leafImage : Image) (bounds : Rect) : ℕ × Bool :=
  let leafAR : ℚ := (leafImage.width : ℚ) / (leafImage.height : ℚ)
  let w : ℚ := (bounds.w : ℚ)
  let h : ℚ := (bounds.h : ℚ) * leafAR
  let bestAR : ℚ := if h < w then w / h else h / w
  let bc : ℤ := ⌊bestAR⌋
  let bc : ℤ := if (bc : ℚ) * ((bc : ℚ) + 1) < bestAR * bestAR then bc + 1 else bc
  (bc.toNat, decide (h < w))

/-! ## Subdivision policies (`Quadtree.cpp`, lines 284–377)

`double` sums and means are modelled exactly over `ℚ` (integer-valued sums
below `2^53` and exact integer quotients are computed exactly by IEEE
doubles, which covers every frame size the program can represent). -/

/-- `std::round`: round half away from zero, over `ℚ`. -/
def roundHalf (x : ℚ) : ℤ := if x < 0 then -⌊-x + 1/2⌋ else ⌊x + 1/2⌋

/-- `bound<uint8_t>(double x)` (`Quadtree.cpp`, lines 285–291): clamp to
`[0, 255]`, otherwise `round`. -/
def boundByte (x : ℚ) : ℕ := if x < 0 then 0 else if 255 < x then 255 else (roundHalf x).toNat

/-- Sum of channel `ch` of `frame` over the rectangle `r`, as a rational:
the loops `for (y = r.y; y < r.h + r.y; ++y) for (x = r.x; x < r.w + r.x; ++x)`. -/
def regionSum (frame : Image) (r : Rect) (ch : ℕ) : ℚ :=
  ((List.range r.h).map fun dy =>
    ((List.range r.w).map fun dx => (frame.data (r.x + dx) (r.y + dy) ch : ℚ)).sum).sum

/-- Interface of `SubdivisionChecker` (current `Quadtree.h`): a
representative-colour scan and a merge decision. -/
structure SubdivisionChecker where
  GetColor : Image → Rect → RgbColor
  Merge : RgbColor → RgbColor → RgbColor → RgbColor → Bool × RgbColor

/-- `BWParameters` (`Quadtree.h`): `int similarityThreshold`. -/
structure BWParameters where
  similarityThreshold : ℤ

/-- `ColorParameters` (`Quadtree.h`): `int similarityThreshold`. -/
structure ColorParameters where
  similarityThreshold : ℤ

/-- `SubdivisionBW` (`Quadtree.cpp`, lines 293–325).
`GetColor`: mean of channel 0 over the region, `bound`ed, replicated to
grey.  `Merge`: `(max − min of the four `.r` values) < threshold`, merged
colour the per-channel integer mean. -/
def subdivisionBW (params : BWParameters) : SubdivisionChecker where
  GetColor frame r :=
    let val := boundByte (regionSum frame r 0 / ((r.h : ℚ) * (r.w : ℚ)))
    ⟨val, val, val⟩
  Merge tl tr bl br :=
    let m := min (min tl.r tr.r) (min bl.r br.r)
    let n := max (max tl.r tr.r) (max bl.r br.r)
    (decide ((n : ℤ) - (m : ℤ) < params.similarityThreshold),
     ⟨(tl.r + tr.r + bl.r + br.r) / 4, (tl.g + tr.g + bl.g + br.g) / 4,
      (tl.b + tr.b + bl.b + br.b) / 4⟩)

/-- `SubdivisionColor` (`Quadtree.cpp`, lines 327–377).
`GetColor`: per-channel means (`sum /= r.w * r.h`), `bound`ed.
`Merge`: maximum pairwise squared RGB distance (over the six pairs,
folded with `maxDiff = max(d, maxDiff)` from `0`) strictly below
`3·threshold²`. -/
def subdivisionColor (params : ColorParameters) : SubdivisionChecker where
  GetColor frame r :=
    ⟨boundByte (regionSum frame r 0 / ((r.w : ℚ) * (r.h : ℚ))),
     boundByte (regionSum frame r 1 / ((r.w : ℚ) * (r.h : ℚ))),
     boundByte (regionSum frame r 2 / ((r.w : ℚ) * (r.h : ℚ)))⟩
  Merge tl tr bl br :=
    let thresh2 : ℤ := 3 * (params.similarityThreshold * params.similarityThreshold)
    let diff2 : RgbColor → RgbColor → ℤ := fun a b =>
      ((a.r : ℤ) - b.r) * ((a.r : ℤ) - b.r) + ((a.g : ℤ) - b.g) * ((a.g : ℤ) - b.g) +
        ((a.b : ℤ) - b.b) * ((a.b : ℤ) - b.b)
    let maxDiff : ℤ :=
      [diff2 tl tr, diff2 tl bl, diff2 tl br, diff2 tr bl, diff2 tr br,
        diff2 bl br].foldl (fun acc d => max d acc) 0
    (decide (maxDiff < thresh2),
     ⟨(tl.r + tr.r + bl.r + br.r) / 4, (tl.g + tr.g + bl.g + br.g) / 4,
      (tl.b + tr.b + bl.b + br.b) / 4⟩)

/-! ## The quadtree engine (`Quadtree.cpp`, lines 186–282) -/

/-- `QuadtreeParameters` (`Quadtree.h`): minimum leaf dimension and
background fill colour. -/
structure QuadtreeParameters where
  minSize : ℕ
  background : RgbColor

/-- The `Quadtree` engine: leaf template, parameters and policy.  The
per-size leaf cache `mLeafCache` is modelled functionally by `GetLeaf`
(the cache memoizes exactly `mLeafImage.resizeFastNew(w, h)` per key and
always returns that same surface). -/
structure Quadtree where
  leafImage : Image
  params : QuadtreeParameters
  checker : SubdivisionChecker

/-- `LeafData` (`Quadtree.h`): a pending (not yet rendered) leaf. -/
structure LeafData where
  color : RgbColor
  bounds : Rect

/-- `Quadtree::GetLeaf(Rect)` (lines 261–282): the cached
`mLeafImage.resizeFastNew(bounds.w, bounds.h)`. -/
def Quadtree.GetLeaf (Q : Quadtree) (bounds : Rect) : Image :=
  Q.leafImage.resizeFastNew bounds.w bounds.h

/-- `Quadtree::RenderLeaf(Image &dst, const LeafData &data)` (lines
223–226): fill the leaf bounds with the background colour, then composite
the tinted leaf sprite at the leaf offset. -/
def Quadtree.RenderLeaf (Q : Quadtree) (dst : Image) (data : LeafData) : Image :=
  (dst.rect data.bounds Q.params.background).overlay
    ((Q.GetLeaf data.bounds).colorMaskNew data.color.r data.color.g data.color.b)
    (data.bounds.x : ℤ) (data.bounds.y : ℤ)

/-- Render, in order, every pending result of a list (the
`for (const auto &result : results) if (result) RenderLeaf(frame, *result);`
loop at lines 253–257). -/
def renderPending (Q : Quadtree) (f : Image) (rs : List (Option LeafData)) : Image :=
  rs.foldl (fun acc r => match r with | some l => Q.RenderLeaf acc l | none => acc) f

/-- The tail of the recursive `ProcessFrame` (lines 245–258): if all four
child results are pending, consult `Merge`; on approval propagate a pending
leaf with the merged colour and the parent bounds, otherwise (and also when
some child already rendered) render every pending child and return
"already rendered" (`none`). -/
def mergeStep (Q : Quadtree) (bounds : Rect) (f : Image)
    (r1 r2 r3 r4 : Option LeafData) : Image × Option LeafData :=
  match r1, r2, r3, r4 with
  | some l1, some l2, some l3, some l4 =>
    let m := Q.checker.Merge l1.color l2.color l3.color l4.color
    if m.1 then (f, some ⟨m.2, bounds⟩)
    else (renderPending Q f [some l1, some l2, some l3, some l4], none)
  | o1, o2, o3, o4 => (renderPending Q f [o1, o2, o3, o4], none)

/-- `Quadtree::ProcessFrame(Image &frame, Rect bounds)` (lines 228–259),
with an explicit recursion budget `fuel` (the C++ recursion is unbounded;
`processRect_fuel_stable` below shows any `fuel` above the tree depth gives
the same result, which is the termination argument of claim C9).  The
mutation of `frame` is threaded explicitly: the call returns the updated
frame and the optional pending leaf. -/
def processRect (Q : Quadtree) : ℕ → Image → Rect → Image × Option LeafData
  | 0, f, _ => (f, none)
  | fuel + 1, f, bounds =>
    if bounds.w ≤ Q.params.minSize ∨ bounds.h ≤ Q.params.minSize then
      (f, some ⟨Q.checker.GetColor f bounds, bounds⟩)
    else
      let mmX := bounds.x + bounds.w / 2
      let mmY := bounds.y + bounds.h / 2
      let brX := bounds.x + bounds.w
      let brY := bounds.y + bounds.h
      let p1 := processRect Q fuel f ⟨bounds.x, bounds.y, mmX - bounds.x, mmY - bounds.y⟩
      let p2 := processRect Q fuel p1.1 ⟨mmX, bounds.y, brX - mmX, mmY - bounds.y⟩
      let p3 := processRect Q fuel p2.1 ⟨bounds.x, mmY, mmX - bounds.x, brY - mmY⟩
      let p4 := processRect Q fuel p3.1 ⟨mmX, mmY, brX - mmX, brY - mmY⟩
      mergeStep Q bounds p4.1 p1.2 p2.2 p3.2 p4.2

/-- Upper-left quadrant of a rectangle (`{ulX, ulY, mmX - ulX, mmY - ulY}`). -/
def quad1 (r : Rect) : Rect := ⟨r.x, r.y, r.w / 2, r.h / 2⟩

/-- Upper-right quadrant (`{mmX, ulY, brX - mmX, mmY - ulY}`). -/
def quad2 (r : Rect) : Rect := ⟨r.x + r.w / 2, r.y, r.w - r.w / 2, r.h / 2⟩

/-- Lower-left quadrant (`{ulX, mmY, mmX - ulX, brY - mmY}`). -/
def quad3 (r : Rect) : Rect := ⟨r.x, r.y + r.h / 2, r.w / 2, r.h - r.h / 2⟩

/-- Lower-right quadrant (`{mmX, mmY, brX - mmX, brY - mmY}`). -/
def quad4 (r : Rect) : Rect := ⟨r.x + r.w / 2, r.y + r.h / 2, r.w - r.w / 2, r.h - r.h / 2⟩

/-- The rectangles on which the recursion bottoms out, i.e. exactly the
regions handed to `SubdivisionChecker::GetColor` (and, via `RenderLeaf`,
the keys the leaf cache can be queried with).  The shape of the recursion
in `processRect` depends only on the bounds, never on pixel data, so this
list is an exact account of the `GetColor` call sites. -/
def leafRects (minSize : ℕ) : ℕ → Rect → List Rect
  | 0, _ => []
  | fuel + 1, r =>
    if r.w ≤ minSize ∨ r.h ≤ minSize then [r]
    else
      leafRects minSize fuel (quad1 r) ++ leafRects minSize fuel (quad2 r) ++
        leafRects minSize fuel (quad3 r) ++ leafRects minSize fuel (quad4 r)

/-- `Quadtree::ProcessFrame(Image frame)` (lines 189–216): compute the
split count and axis, cut the frame into tiles by the accumulating
remainder loop (`splitTiles`), quadtree-process each tile in order, and
render a tile's root leaf if the tile came back still pending.  The fuel
`r.w + r.h + 1` strictly dominates the recursion depth whenever
`minSize ≥ 1` (each recursion step shrinks both extents, see claim C9). -/
def Quadtree.ProcessFrame (Q : Quadtree) (frame : Image) : Image :=
  let bounds : Rect := ⟨0, 0, frame.width, frame.height⟩
  let sc := getBestSplitCount Q.leafImage bounds
  let tiles := splitTiles (max bounds.w bounds.h) sc.1
  tiles.foldl
    (fun f t =>
      let r : Rect := if sc.2 then ⟨t.1, 0, t.2, bounds.h⟩ else ⟨0, t.1, bounds.w, t.2⟩
      let p := processRect Q (r.w + r.h + 1) f r
      match p.2 with
      | some l => Q.RenderLeaf p.1 l
      | none => p.1)
    frame

/-! ## Frame-task scheduling (`main.cpp`, revision `part_004`)

`getFrameBuilder` (lines 227–239) is a stateful lambda invoked once per
submitted output-frame task, on the submitting thread, before the task is
dispatched:

```
if (repeatIndex >= repeat) { repeatIndex = 0; ++frameIndex; }
if (frameIndex >= frameBuilders.size()) { frameIndex = 0; }
++repeatIndex;
return &frameBuilders[frameIndex];
```
-/

/-- One invocation of `getFrameBuilder` over the captured state
`(repeatIndex, frameIndex)`; returns the new state and the index of the
builder handed to the task. -/
def gfbStep (rep N : ℕ) (s : ℕ × ℕ) : (ℕ × ℕ) × ℕ :=
  let s1 := if rep ≤ s.1 then (0, s.2 + 1) else s
  let fi := if N ≤ s1.2 then 0 else s1.2
  ((s1.1 + 1, fi), fi)

/-- State of the lambda after `k` invocations (initially
`repeatIndex = 0, frameIndex = 0`). -/
def gfbState (rep N : ℕ) : ℕ → ℕ × ℕ
  | 0 => (0, 0)
  | k + 1 => (gfbStep rep N (gfbState rep N k)).1

/-- The builder index returned by the `k`-th invocation (`k` from 0), i.e.
the animation frame assigned to the `k`-th submitted output-frame task. -/
def builderIndex (rep N k : ℕ) : ℕ := (gfbStep rep N (gfbState rep N k)).2

/-! ## `QuadtreeBuilder` lifecycle (`main.cpp` `part_004`, lines 147–195)

All four member functions take the builder's mutex, so a concurrent history
is a sequence of atomic operations; a history is modelled as a list of
events, each tagged with the id of the task performing it
(`allowRelease` is performed once by the submitting thread). -/

/-- One `QuadtreeBuilder` operation. -/
inductive BEvent where
  | addUse : ℕ → BEvent
  | getTree : ℕ → BEvent
  | release : ℕ → BEvent
  | allowRelease : BEvent
deriving DecidableEq

/-- The fields of `QuadtreeBuilder` relevant to the lifecycle:
`mUseCount`, `mUses`, `mAllowRelease` and whether `mQuadtree` is engaged. -/
structure BState where
  useCount : ℕ
  uses : ℕ
  allowRelease : Bool
  built : Bool
deriving DecidableEq

/-- `QuadtreeBuilder::ReleaseImpl` (lines 180–184): destroy the engine when
the one-time signal has been given and every scheduled use has completed. -/
def releaseImpl (s : BState) : BState :=
  if s.allowRelease ∧ s.useCount ≤ s.uses then { s with built := false } else s

/-- Effect of one operation on the builder state, following `AddUse`,
`GetTree` (lazy construction resets `mUses`), `Release` and `AllowRelease`. -/
def applyOp (s : BState) : BEvent → BState
  | .addUse _ => releaseImpl { s with useCount := s.useCount + 1 }
  | .getTree _ => if s.built then s else { s with built := true, uses := 0 }
  | .release _ => releaseImpl { s with uses := s.uses + 1 }
  | .allowRelease => releaseImpl { s with allowRelease := true }

/-- Initial builder state: counters zero, signal not given, engine not built. -/
def initB : BState := ⟨0, 0, false, false⟩

/-- State after executing a history. -/
def execB (p : List BEvent) : BState := p.foldl applyOp initB

/-- Whether executing `e` in state `s` destroys the engine (the
`mQuadtree = std::nullopt;` assignment firing on an engaged engine). -/
def destroyStep (s : BState) (e : BEvent) : Bool :=
  s.built && !(applyOp s e).built

/-- Number of destructions along a history starting from `s`. -/
def destroysFrom (s : BState) : List BEvent → ℕ
  | [] => 0
  | e :: tl => (if destroyStep s e then 1 else 0) + destroysFrom (applyOp s e) tl

/-- Number of destructions along a history from the initial state. -/
def destroys (p : List BEvent) : ℕ := destroysFrom initB p

/-- Number of `AddUse` operations of task `t` in a history. -/
def addCnt (t : ℕ) (p : List BEvent) : ℕ := p.count (BEvent.addUse t)

/-- Number of `GetTree` operations of task `t` in a history. -/
def getCnt (t : ℕ) (p : List BEvent) : ℕ := p.count (BEvent.getTree t)

/-- Number of `Release` operations of task `t` in a history. -/
def relCnt (t : ℕ) (p : List BEvent) : ℕ := p.count (BEvent.release t)

/-- Recognizer for `AddUse` events. -/
def isAdd : BEvent → Bool
  | .addUse _ => true
  | _ => false

/-- Recognizer for `Release` events. -/
def isRel : BEvent → Bool
  | .release _ => true
  | _ => false

/-- Total number of `AddUse` operations in a history (= `mUseCount`). -/
def totAdd (p : List BEvent) : ℕ := (p.filter isAdd).length

/-- Total number of `Release` operations in a history. -/
def totRel (p : List BEvent) : ℕ := (p.filter isRel).length

/-- Every event belongs to one of the `n` tasks. -/
def eventOk (n : ℕ) : BEvent → Bool
  | .addUse t => decide (t < n)
  | .getTree t => decide (t < n)
  | .release t => decide (t < n)
  | .allowRelease => true

/-- The usage discipline of `createVideoFrames` (lines 253–295) assumed by
claim C6: `n` tasks, each performing `AddUse` at most once, `GetTree` only
after its `AddUse`, and `Release` only after its `GetTree` (all counted
prefix-wise, which encodes the ordering). -/
@[reducible] def validTrace (n : ℕ) (p : List BEvent) : Prop :=
  (∀ e ∈ p, eventOk n e = true) ∧
  (∀ t, t < n → addCnt t p ≤ 1) ∧
  (∀ k, k ≤ p.length → ∀ t, t < n →
    relCnt t (p.take k) ≤ getCnt t (p.take k) ∧ getCnt t (p.take k) ≤ addCnt t (p.take k))

/-! ## Concrete fixtures used by witnesses and counterexamples -/

/-- A policy with constant answers, used to instantiate policy-generic
theorems on concrete inputs. -/
def toyChecker : SubdivisionChecker where
  GetColor _ _ := ⟨1, 2, 3⟩
  Merge tl _ _ _ := (true, tl)

/-- A 2×2 all-zero, 3-channel frame. -/
def frameTwo : Image := ⟨2, 2, 3, fun _ _ _ => 0⟩

/-- A 4×4 all-zero, 3-channel frame. -/
def frameFour : Image := ⟨4, 4, 3, fun _ _ _ => 0⟩

/-- A 1×1 all-zero leaf template. -/
def leafOne : Image := ⟨1, 1, 3, fun _ _ _ => 0⟩

/-- An engine over the toy policy with `minSize = 1`. -/
def toyQuadtree : Quadtree := ⟨leafOne, ⟨1, ⟨0, 0, 0⟩⟩, toyChecker⟩

/-- A 1×2 (width 1, height 2) leaf template: `leafAR = 1/2` exactly, all
`GetBestSplitCount` arithmetic on the C3 failing input is dyadic, so the
`double` computation agrees with the `ℚ` model. -/
def leafTall : Image := ⟨1, 2, 3, fun _ _ _ => 0⟩

/-- 1×1 white 3-channel surface (counterexample input for C7). -/
def whiteOne : Image := ⟨1, 1, 3, fun _ _ _ => 255⟩

/-- 1×1 4-channel destination whose pixel is `(5,5,5)` with alpha 0
(counterexample input for C8). -/
def dstAlphaZero : Image := ⟨1, 1, 4, fun _ _ c => if c = 3 then 0 else 5⟩

/-- 1×1 fully transparent 4-channel source (alpha 0 everywhere). -/
def srcTransparent : Image := ⟨1, 1, 4, fun _ _ _ => 0⟩

/-- 2×2 4-channel destination with distinct opaque pixels (C8 witness). -/
def dstOpaque : Image := ⟨2, 2, 4, fun X Y c => if c = 3 then 255 else X + 2 * Y⟩

/-- 2×2 uniform frame of colour `(10, 20, 30)` (C4 witness). -/
def frameUniform : Image :=
  ⟨2, 2, 3, fun _ _ c => if c = 0 then 10 else if c = 1 then 20 else 30⟩

/-- The four-operation history of a single task followed by the
end-of-scheduling signal (C6 witness). -/
def simpleTrace : List BEvent :=
  [BEvent.addUse 0, BEvent.getTree 0, BEvent.release 0, BEvent.allowRelease]

/-! # Theorems -/

/-! ## C2: tile partitioning -/

theorem splitLoop_length (S step e : ℕ) :
    ∀ n pos size err, (splitLoop S step e n pos size err).length = n := by
  intro n
  induction n with
  | zero => intro pos size err; simp [splitLoop]
  | succ n ih =>
    intro pos size err
    rw [splitLoop]
    by_cases hc : S ≤ err + e
    · simp [if_pos hc, ih]
    · simp [if_neg hc, ih]

theorem splitLoop_sizes_mem (S step e : ℕ) :
    ∀ n pos size err, (size = step ∨ size = step + 1) →
      ∀ p ∈ splitLoop S step e n pos size err, p.2 = step ∨ p.2 = step + 1 := by
  intro n
  induction n with
  | zero => intro pos size err hs p hp; simp [splitLoop] at hp
  | succ n ih =>
    intro pos size err hs p hp
    rw [splitLoop] at hp
    rcases List.mem_cons.mp hp with h | h
    · subst h; exact hs
    · by_cases hc : S ≤ err + e
      · rw [if_pos hc] at h
        exact ih (pos + size) (step + 1) (err + e - S) (Or.inr rfl) p h
      · rw [if_neg hc] at h
        exact ih (pos + size) step (err + e) (Or.inl rfl) p h

theorem splitLoop_sizes_sum (S step e : ℕ) (he : e < S) :
    ∀ n pos size err, err < S →
      ((splitLoop S step e (n + 1) pos size err).map Prod.snd).sum
        = size + n * step + (err + n * e) / S := by
  intro n
  induction n with
  | zero =>
    intro pos size err herr
    simp [splitLoop, Nat.div_eq_of_lt herr]
  | succ n ih =>
    intro pos size err herr
    rw [splitLoop]
    by_cases hc : S ≤ err + e
    · rw [if_pos hc]
      have htail := ih (pos + size) (step + 1) (err + e - S) (by omega)
      simp only [List.map_cons, List.sum_cons, htail]
      have hX : S ≤ err + (n + 1) * e := by
        have h1 : e ≤ (n + 1) * e := Nat.le_mul_of_pos_left e (Nat.succ_pos n)
        omega
      have hdiv : (err + (n + 1) * e) / S = (err + (n + 1) * e - S) / S + 1 :=
        Nat.div_eq_sub_div (by omega) hX
      have harg : err + e - S + n * e = err + (n + 1) * e - S := by
        have h2 : (n + 1) * e = n * e + e := by ring
        omega
      rw [harg]
      calc size + (step + 1 + n * step + (err + (n + 1) * e - S) / S)
          = size + ((n + 1) * step + ((err + (n + 1) * e - S) / S + 1)) := by
            rw [Nat.succ_mul]; ring
        _ = size + ((n + 1) * step + (err + (n + 1) * e) / S) := by rw [← hdiv]
        _ = size + (n + 1) * step + (err + (n + 1) * e) / S := by ring
    · rw [if_neg hc]
      have htail := ih (pos + size) step (err + e) (by omega)
      simp only [List.map_cons, List.sum_cons, htail]
      have harg : err + e + n * e = err + (n + 1) * e := by
        have h2 : (n + 1) * e = n * e + e := by ring
        omega
      rw [harg]
      calc size + (step + n * step + (err + (n + 1) * e) / S)
          = size + (n + 1) * step + (err + (n + 1) * e) / S := by
            rw [Nat.succ_mul]; ring

theorem splitTiles_eq_mod (D S : ℕ) :
    splitTiles D S = splitLoop S (D / S) (D % S) S 0 (D / S) (D % S) := by
  have h := Nat.div_add_mod D S
  have h2 : D = D % S + D / S * S := by
    conv_lhs => rw [← h]
    ring
  have herr : D - D / S * S = D % S := Nat.sub_eq_of_eq_add h2
  rw [splitTiles, herr]

/-- C2: the accumulating-remainder tile loop of `Quadtree::ProcessFrame`
(current `Quadtree.cpp`, lines 194–214) cuts the distributed frame
dimension `D` into exactly `S = splitCount ≥ 1` tiles whose sizes sum to
`D` exactly and pairwise differ by at most 1. -/
theorem claim_C2_tile_partition (D S : ℕ) (hS : 1 ≤ S) :
    ((splitTiles D S).map Prod.snd).sum = D ∧
    (splitTiles D S).length = S ∧
    (∀ a ∈ (splitTiles D S).map Prod.snd, ∀ b ∈ (splitTiles D S).map Prod.snd,
      a ≤ b + 1) := by
  obtain ⟨n, rfl⟩ : ∃ n, S = n + 1 := ⟨S - 1, by omega⟩
  rw [splitTiles_eq_mod]
  have hmod : D % (n + 1) < n + 1 := Nat.mod_lt _ (by omega)
  refine ⟨?_, ?_, ?_⟩
  · rw [splitLoop_sizes_sum (n + 1) (D / (n + 1)) (D % (n + 1)) hmod n 0
      (D / (n + 1)) (D % (n + 1)) hmod]
    have h1 : D % (n + 1) + n * (D % (n + 1)) = (n + 1) * (D % (n + 1)) := by ring
    rw [h1, Nat.mul_div_cancel_left (D % (n + 1)) (Nat.succ_pos n)]
    have h2 : D / (n + 1) + n * (D / (n + 1)) = (n + 1) * (D / (n + 1)) := by ring
    rw [h2]
    exact Nat.div_add_mod D (n + 1)
  · rw [splitLoop_length]
  · intro a ha b hb
    obtain ⟨pa, hpa, rfl⟩ := List.mem_map.mp ha
    obtain ⟨pb, hpb, rfl⟩ := List.mem_map.mp hb
    have h1 := splitLoop_sizes_mem (n + 1) (D / (n + 1)) (D % (n + 1)) (n + 1) 0
      (D / (n + 1)) (D % (n + 1)) (Or.inl rfl) pa hpa
    have h2 := splitLoop_sizes_mem (n + 1) (D / (n + 1)) (D % (n + 1)) (n + 1) 0
      (D / (n + 1)) (D % (n + 1)) (Or.inl rfl) pb hpb
    rcases h1 with h1 | h1 <;> rcases h2 with h2 | h2 <;> omega

/-- Witness for C2 at `D = 7`, `S = 3` (tiles of sizes 2, 2, 3). -/
theorem claim_C2_witness :
    (1 ≤ 3 ∧ ((splitTiles 7 3).map Prod.snd).sum = 7) ∧
      splitTiles 7 3 = [(0, 2), (2, 2), (4, 3)] :=
  ⟨⟨by decide, (claim_C2_tile_partition 7 3 (by decide)).1⟩, by decide⟩

/-! ## C5: deterministic round-robin frame assignment -/

theorem succ_mod_eq (N q : ℕ) (hN : 1 ≤ N) :
    (q + 1) % N = if q % N + 1 = N then 0 else q % N + 1 := by
  by_cases h1 : N = 1
  · subst h1; simp [Nat.mod_one]
  · rw [Nat.add_mod q 1 N]
    have h2 : 1 % N = 1 := Nat.mod_eq_of_lt (by omega)
    rw [h2]
    have hlt : q % N < N := Nat.mod_lt _ (by omega)
    by_cases h3 : q % N + 1 = N
    · rw [if_pos h3, h3, Nat.mod_self]
    · rw [if_neg h3]
      exact Nat.mod_eq_of_lt (by omega)

theorem gfbState_eq (rep N : ℕ) (hr : 1 ≤ rep) (hN : 1 ≤ N) :
    ∀ k, gfbState rep N (k + 1) = (k % rep + 1, k / rep % N) := by
  intro k
  induction k with
  | zero =>
    have h1 : ¬ rep ≤ 0 := by omega
    have h2 : ¬ N ≤ 0 := by omega
    simp [gfbState, gfbStep, h1, h2]
  | succ k ih =>
    have hstep : gfbState rep N (k + 1 + 1) = (gfbStep rep N (gfbState rep N (k + 1))).1 := rfl
    rw [hstep, ih, gfbStep]
    have hkr : k % rep < rep := Nat.mod_lt _ (by omega)
    have hkN : k / rep % N < N := Nat.mod_lt _ (by omega)
    by_cases hc : k % rep + 1 = rep
    · have hc1 : rep ≤ k % rep + 1 := by omega
      have hmod : (k + 1) % rep = 0 := by rw [succ_mod_eq rep k hr, if_pos hc]
      have hdvd : rep ∣ (k + 1) := Nat.dvd_of_mod_eq_zero hmod
      have hdivk : (k + 1) / rep = k / rep + 1 := by
        rw [Nat.succ_div, if_pos hdvd]
      simp only [if_pos hc1, hmod, hdivk]
      by_cases hw : k / rep % N + 1 = N
      · have hw1 : N ≤ k / rep % N + 1 := by omega
        simp only [if_pos hw1]
        rw [succ_mod_eq N (k / rep) hN, if_pos hw]
      · have hw1 : ¬ N ≤ k / rep % N + 1 := by omega
        simp only [if_neg hw1]
        rw [succ_mod_eq N (k / rep) hN, if_neg hw]
    · have hc1 : ¬ rep ≤ k % rep + 1 := by omega
      have hmod : (k + 1) % rep = k % rep + 1 := by
        rw [succ_mod_eq rep k hr, if_neg hc]
      have hdvd : ¬ rep ∣ (k + 1) := by
        intro hd
        have := Nat.mod_eq_zero_of_dvd hd
        omega
      have hdivk : (k + 1) / rep = k / rep := by
        rw [Nat.succ_div, if_neg hdvd, Nat.add_zero]
      have hw1 : ¬ N ≤ k / rep % N := by omega
      simp only [if_neg hc1, if_neg hw1, hmod, hdivk]

theorem builderIndex_eq_state (rep N k : ℕ) :
    builderIndex rep N k = (gfbState rep N (k + 1)).2 := rfl

/-- C5: for repeat count `r ≥ 1` over `N ≥ 1` animation-frame builders,
the `k`-th invocation of `getFrameBuilder` (`main.cpp` `part_004`, lines
227–239) — performed on the submitting thread before the `k`-th task is
dispatched — returns the builder at index `⌊k / r⌋ mod N`, a function of
`k` alone, independent of any completion order. -/
theorem claim_C5_round_robin (rep N : ℕ) (hr : 1 ≤ rep) (hN : 1 ≤ N) (k : ℕ) :
    builderIndex rep N k = k / rep % N := by
  rw [builderIndex_eq_state, gfbState_eq rep N hr hN k]

/-- Witness for C5: repeat 2 over 3 builders, 8th task gets builder
`⌊7/2⌋ mod 3 = 0`. -/
theorem claim_C5_witness :
    (1 ≤ 2 ∧ 1 ≤ 3 ∧ builderIndex 2 3 7 = 7 / 2 % 3) ∧ builderIndex 2 3 7 = 0 :=
  ⟨⟨by decide, by decide, claim_C5_round_robin 2 3 (by decide) (by decide) 7⟩, by decide⟩

/-! ## C7: tint (`colorMask` / `colorMaskNew` with byte arguments) -/

/-- Counterexample to C7 as stated: tinting a white pixel with 255 yields
`(255·255) >> 8 = 254`, not `255·255/255 = 255` — the current byte
`scale` divides by 256 (shift), not by 255. -/
theorem claim_C7_counterexample :
    (whiteOne.colorMaskNew 255 255 255).data 0 0 0 = 254 ∧ 255 * 255 / 255 = 255 := by
  decide

/-- C7 (amended): `colorMaskNew` preserves width, height and channel count
and computes, per pixel, channel `i` as `source_i · color_i >> 8`
(truncated division by 256, the current `Image.cpp`), which is within one
unit of the `source_i · color_i / 255` the spec states and which the
`part_006` / `src/Image.cpp` revision (`colorMaskDiv255`) computes exactly;
being a pure function of the input surface, it leaves the source value
unchanged. -/
theorem claim_C7_tint (img : Image) (r g b : ℕ) :
    ((img.colorMaskNew r g b).width = img.width ∧
     (img.colorMaskNew r g b).height = img.height ∧
     (img.colorMaskNew r g b).channels = img.channels) ∧
    (∀ X Y, (img.colorMaskNew r g b).data X Y 0 = img.data X Y 0 * r / 256 ∧
            (img.colorMaskNew r g b).data X Y 1 = img.data X Y 1 * g / 256 ∧
            (img.colorMaskNew r g b).data X Y 2 = img.data X Y 2 * b / 256) ∧
    (∀ X Y, (img.colorMaskDiv255 r g b).data X Y 0 = img.data X Y 0 * r / 255 ∧
            (img.colorMaskDiv255 r g b).data X Y 1 = img.data X Y 1 * g / 255 ∧
            (img.colorMaskDiv255 r g b).data X Y 2 = img.data X Y 2 * b / 255) ∧
    (∀ v s : ℕ, v ≤ 255 → s ≤ 255 →
      v * s / 256 ≤ v * s / 255 ∧ v * s / 255 ≤ v * s / 256 + 1) := by
  refine ⟨⟨rfl, rfl, rfl⟩, ?_, ?_, ?_⟩
  · intro X Y
    simp [Image.colorMaskNew, Image.colorMask, scaleShift8]
  · intro X Y
    simp [Image.colorMaskDiv255, scaleDiv255]
  · intro v s hv hs
    have hx : v * s ≤ 255 * 255 := Nat.mul_le_mul hv hs
    constructor <;> omega

/-- Witness for C7's bounded-difference clause at `v = s = 255`. -/
theorem claim_C7_witness :
    (255 ≤ 255 ∧ 255 * 255 / 256 ≤ 255 * 255 / 255 ∧
      255 * 255 / 255 ≤ 255 * 255 / 256 + 1) ∧
    (whiteOne.colorMaskNew 17 34 51).data 0 0 1 = 255 * 34 / 256 := by
  refine ⟨⟨by decide, (claim_C7_tint whiteOne 255 255 255).2.2.2 255 255 (by decide) (by decide)⟩, ?_⟩
  exact ((claim_C7_tint whiteOne 17 34 51).2.1 0 0).2.1

/-! ## C8: `compositeOver` (`Image::overlay`) -/

/-- Counterexample to C8 as stated: overlaying a fully transparent source
onto a destination pixel whose own alpha is 0 zeroes the pixel
(`outAlpha < 1` branch, `std::fill_n(dstPixel, mChannels, 0)`): the
destination is changed from 5 to 0. -/
theorem claim_C8_counterexample :
    (dstAlphaZero.overlay srcTransparent 0 0).data 0 0 0 = 0 ∧
      dstAlphaZero.data 0 0 0 = 5 := by
  decide

/-- C8 (amended): `overlay` never changes the destination geometry; when the
clipped intersection of the source with the destination is empty (for any
source, in particular a fully opaque one) every destination pixel is
unchanged; and with a fully transparent source (4-channel, alpha 0
everywhere, byte-valued) every destination pixel is unchanged *provided*
the destination has no alpha channel or that pixel's own alpha is nonzero —
a destination pixel with alpha 0 is zeroed instead (see the
counterexample). -/
theorem claim_C8_overlay (dst source : Image) (x y : ℤ) :
    ((dst.overlay source x y).width = dst.width ∧
     (dst.overlay source x y).height = dst.height ∧
     (dst.overlay source x y).channels = dst.channels) ∧
    ((min (x + source.width) dst.width ≤ max x 0 ∨
      min (y + source.height) dst.height ≤ max y 0) →
      ∀ X Y c, (dst.overlay source x y).data X Y c = dst.data X Y c) ∧
    (4 ≤ source.channels →
     (∀ u v, source.data u v 3 = 0) →
     (∀ u v c, source.data u v c ≤ 255) →
     ∀ X Y c, (dst.channels < 4 ∨ dst.data X Y 3 ≠ 0) →
       (dst.overlay source x y).data X Y c = dst.data X Y c) := by
  refine ⟨⟨rfl, rfl, rfl⟩, ?_, ?_⟩
  · intro hempty X Y c
    simp only [Image.overlay]
    rw [if_neg]
    rintro ⟨h1, h2, h3, h4⟩
    rcases hempty with h | h <;> omega
  · intro hch h0 h255 X Y c hdst
    simp only [Image.overlay]
    by_cases hg : (max x 0 ≤ (X : ℤ) ∧ (X : ℤ) < min (x + source.width) dst.width ∧
        max y 0 ≤ (Y : ℤ) ∧ (Y : ℤ) < min (y + source.height) dst.height)
    · rw [if_pos hg]
      have hsrcch : ¬ source.channels < 4 := by omega
      simp only [if_neg hsrcch, h0]
      have h0255 : ¬ (0 : ℕ) = 255 := by decide
      rw [if_neg h0255]
      have hcancel : ∀ a : ℕ, 0 + a * (255 - 0) / 255 = a := by intro a; omega
      by_cases hch4 : dst.channels < 4
      · rw [if_pos hch4, hcancel 255]
        have hnl : ¬ (255 : ℕ) < 1 := by decide
        rw [if_neg hnl]
        by_cases hc3 : c < 3
        · rw [if_pos hc3]
          have hs := h255 (((X : ℤ) - x).toNat) (((Y : ℤ) - y).toNat) c
          omega
        · rw [if_neg hc3]
          have hn4 : ¬ (c = 3 ∧ 3 < dst.channels) := by omega
          rw [if_neg hn4]
      · have hne : dst.data X Y 3 ≠ 0 := by
          rcases hdst with hlt | hne
          · exact absurd hlt hch4
          · exact hne
        rw [if_neg hch4, hcancel (dst.data X Y 3)]
        have hnl : ¬ dst.data X Y 3 < 1 := by omega
        rw [if_neg hnl]
        by_cases hc3 : c < 3
        · rw [if_pos hc3]
          have hs := h255 (((X : ℤ) - x).toNat) (((Y : ℤ) - y).toNat) c
          omega
        · rw [if_neg hc3]
          by_cases hc4 : c = 3 ∧ 3 < dst.channels
          · rw [if_pos hc4, hc4.1]
          · rw [if_neg hc4]
    · rw [if_neg hg]

/-- Witness for C8: an empty-clip overlay (offset 10 on a 2-wide
destination) and a fully transparent overlay onto an opaque pixel both
leave the destination pixel unchanged. -/
theorem claim_C8_witness :
    (dstOpaque.overlay srcTransparent 10 0).data 0 0 0 = dstOpaque.data 0 0 0 ∧
    (dstOpaque.overlay srcTransparent 0 0).data 1 1 2 = dstOpaque.data 1 1 2 := by
  constructor
  · exact (claim_C8_overlay dstOpaque srcTransparent 10 0).2.1 (by decide) 0 0 0
  · exact (claim_C8_overlay dstOpaque srcTransparent 0 0).2.2 (by decide)
      (fun _ _ => rfl) (fun _ _ _ => Nat.zero_le 255) 1 1 2 (Or.inr (by decide))

/-! ## C4: representative colour of uniform regions; merge of identical colours -/

theorem sum_map_range_const (n : ℕ) (q : ℚ) (F : ℕ → ℚ) (h : ∀ i, i < n → F i = q) :
    ((List.range n).map F).sum = n * q := by
  induction n with
  | zero => simp
  | succ n ih =>
    rw [List.range_succ, List.map_append, List.sum_append,
      ih (fun i hi => h i (by omega))]
    simp [h n (by omega)]
    ring_nf

theorem regionSum_const (frame : Image) (r : Rect) (ch v : ℕ)
    (h : ∀ dx, dx < r.w → ∀ dy, dy < r.h → frame.data (r.x + dx) (r.y + dy) ch = v) :
    regionSum frame r ch = ((r.h : ℚ) * (r.w : ℚ)) * (v : ℚ) := by
  rw [regionSum]
  rw [sum_map_range_const r.h ((r.w : ℚ) * (v : ℚ)) _ ?inner]
  · ring
  case inner =>
    intro dy hdy
    apply sum_map_range_const
    intro dx hdx
    rw [h dx hdx dy hdy]

theorem boundByte_nat (v : ℕ) (hv : v ≤ 255) : boundByte (v : ℚ) = v := by
  rw [boundByte]
  have h1 : ¬ ((v : ℚ) < 0) := by
    rw [not_lt]
    positivity
  rw [if_neg h1]
  have h2 : ¬ ((255 : ℚ) < (v : ℚ)) := by
    rw [not_lt]
    exact_mod_cast hv
  rw [if_neg h2, roundHalf, if_neg h1]
  have h3 : ⌊(v : ℚ) + 1 / 2⌋ = (v : ℤ) := by
    rw [Int.floor_eq_iff]
    constructor
    · push_cast
      linarith
    · push_cast
      linarith
  rw [h3]
  exact Int.toNat_natCast v

/-- C4 (amended): on a region where every pixel has colour `C` (grey value
`g` for the monochrome policy, which reads only channel 0), `GetColor`
returns exactly `C` in both policy variants; and `Merge` on four identical
colours returns `merge = true` for every threshold `≥ 1` — at threshold 0
both variants refuse (the comparisons are strict; see the counterexample). -/
theorem claim_C4_policy (frame : Image) (r : Rect) (g : ℕ) (C : RgbColor) (tBW tC : ℤ) :
    (1 ≤ r.w → 1 ≤ r.h → g ≤ 255 →
      (∀ dx, dx < r.w → ∀ dy, dy < r.h → frame.data (r.x + dx) (r.y + dy) 0 = g) →
      (subdivisionBW ⟨tBW⟩).GetColor frame r = ⟨g, g, g⟩) ∧
    (1 ≤ r.w → 1 ≤ r.h → C.r ≤ 255 → C.g ≤ 255 → C.b ≤ 255 →
      (∀ dx, dx < r.w → ∀ dy, dy < r.h →
        frame.data (r.x + dx) (r.y + dy) 0 = C.r ∧
        frame.data (r.x + dx) (r.y + dy) 1 = C.g ∧
        frame.data (r.x + dx) (r.y + dy) 2 = C.b) →
      (subdivisionColor ⟨tC⟩).GetColor frame r = C) ∧
    (1 ≤ tBW → ((subdivisionBW ⟨tBW⟩).Merge C C C C).1 = true) ∧
    (1 ≤ tC → ((subdivisionColor ⟨tC⟩).Merge C C C C).1 = true) := by
  have hNe : 1 ≤ r.w → 1 ≤ r.h → ((r.h : ℚ) * (r.w : ℚ)) ≠ 0 := by
    intro hw hh
    have hw0 : (0 : ℚ) < (r.w : ℚ) := by exact_mod_cast hw
    have hh0 : (0 : ℚ) < (r.h : ℚ) := by exact_mod_cast hh
    exact ne_of_gt (mul_pos hh0 hw0)
  refine ⟨?_, ?_, ?_, ?_⟩
  · intro hw hh hg hunif
    have hmean : regionSum frame r 0 / ((r.h : ℚ) * (r.w : ℚ)) = (g : ℚ) := by
      rw [regionSum_const frame r 0 g hunif, mul_div_cancel_left₀ _ (hNe hw hh)]
    simp only [subdivisionBW, hmean, boundByte_nat g hg]
  · intro hw hh hr hg hb hunif
    have hcomm : (r.w : ℚ) * (r.h : ℚ) = (r.h : ℚ) * (r.w : ℚ) := mul_comm _ _
    have hm0 : regionSum frame r 0 / ((r.w : ℚ) * (r.h : ℚ)) = (C.r : ℚ) := by
      rw [regionSum_const frame r 0 C.r (fun dx hdx dy hdy => (hunif dx hdx dy hdy).1),
        hcomm, mul_div_cancel_left₀ _ (hNe hw hh)]
    have hm1 : regionSum frame r 1 / ((r.w : ℚ) * (r.h : ℚ)) = (C.g : ℚ) := by
      rw [regionSum_const frame r 1 C.g (fun dx hdx dy hdy => (hunif dx hdx dy hdy).2.1),
        hcomm, mul_div_cancel_left₀ _ (hNe hw hh)]
    have hm2 : regionSum frame r 2 / ((r.w : ℚ) * (r.h : ℚ)) = (C.b : ℚ) := by
      rw [regionSum_const frame r 2 C.b (fun dx hdx dy hdy => (hunif dx hdx dy hdy).2.2),
        hcomm, mul_div_cancel_left₀ _ (hNe hw hh)]
    simp only [subdivisionColor, hm0, hm1, hm2, boundByte_nat C.r hr,
      boundByte_nat C.g hg, boundByte_nat C.b hb]
  · intro ht
    simp only [subdivisionBW, min_self, max_self, decide_eq_true_eq]
    omega
  · intro ht
    simp only [subdivisionColor, decide_eq_true_eq, sub_self, mul_zero, zero_mul,
      add_zero, List.foldl, max_self]
    have h1 : (0 : ℤ) < tC * tC := mul_pos (by omega) (by omega)
    omega

/-- Counterexample to C4 as stated ("for every threshold ≥ 0"): at
threshold 0 both policies refuse to merge four identical colours, because
both comparisons are strict (`n - m < 0` and `maxDiff < 3·0²` are false at
0). -/
theorem claim_C4_counterexample :
    ((subdivisionBW ⟨0⟩).Merge ⟨7, 7, 7⟩ ⟨7, 7, 7⟩ ⟨7, 7, 7⟩ ⟨7, 7, 7⟩).1 = false ∧
    ((subdivisionColor ⟨0⟩).Merge ⟨7, 7, 7⟩ ⟨7, 7, 7⟩ ⟨7, 7, 7⟩ ⟨7, 7, 7⟩).1 = false := by
  constructor <;> decide

/-- Witness for C4 on a concrete uniform 2×2 frame of colour `(10,20,30)`
with threshold 5. -/
theorem claim_C4_witness :
    (subdivisionBW ⟨5⟩).GetColor frameUniform ⟨0, 0, 2, 2⟩ = ⟨10, 10, 10⟩ ∧
    (subdivisionColor ⟨5⟩).GetColor frameUniform ⟨0, 0, 2, 2⟩ = ⟨10, 20, 30⟩ ∧
    ((subdivisionBW ⟨5⟩).Merge ⟨10, 20, 30⟩ ⟨10, 20, 30⟩ ⟨10, 20, 30⟩ ⟨10, 20, 30⟩).1 = true ∧
    ((subdivisionColor ⟨5⟩).Merge ⟨10, 20, 30⟩ ⟨10, 20, 30⟩ ⟨10, 20, 30⟩ ⟨10, 20, 30⟩).1 = true := by
  refine ⟨?_, ?_, ?_, ?_⟩
  · exact (claim_C4_policy frameUniform ⟨0, 0, 2, 2⟩ 10 ⟨10, 20, 30⟩ 5 5).1
      (by decide) (by decide) (by decide) (by decide)
  · exact (claim_C4_policy frameUniform ⟨0, 0, 2, 2⟩ 10 ⟨10, 20, 30⟩ 5 5).2.1
      (by decide) (by decide) (by decide) (by decide) (by decide) (by decide)
  · exact (claim_C4_policy frameUniform ⟨0, 0, 2, 2⟩ 10 ⟨10, 20, 30⟩ 5 5).2.2.1 (by decide)
  · exact (claim_C4_policy frameUniform ⟨0, 0, 2, 2⟩ 10 ⟨10, 20, 30⟩ 5 5).2.2.2 (by decide)

/-! ## The recursive decomposition: unfolding and invariants -/

theorem processRect_succ (Q : Quadtree) (fuel : ℕ) (f : Image) (r : Rect)
    (h : ¬ (r.w ≤ Q.params.minSize ∨ r.h ≤ Q.params.minSize)) :
    processRect Q (fuel + 1) f r =
      mergeStep Q r
        (processRect Q fuel
          (processRect Q fuel
            (processRect Q fuel (processRect Q fuel f (quad1 r)).1 (quad2 r)).1
            (quad3 r)).1
          (quad4 r)).1
        (processRect Q fuel f (quad1 r)).2
        (processRect Q fuel (processRect Q fuel f (quad1 r)).1 (quad2 r)).2
        (processRect Q fuel
          (processRect Q fuel (processRect Q fuel f (quad1 r)).1 (quad2 r)).1
          (quad3 r)).2
        (processRect Q fuel
          (processRect Q fuel
            (processRect Q fuel (processRect Q fuel f (quad1 r)).1 (quad2 r)).1
            (quad3 r)).1
          (quad4 r)).2 := by
  conv_lhs => rw [processRect]
  rw [if_neg h]
  have e1 : r.x + r.w / 2 - r.x = r.w / 2 := by omega
  have e2 : r.y + r.h / 2 - r.y = r.h / 2 := by omega
  have e3 : r.x + r.w - (r.x + r.w / 2) = r.w - r.w / 2 := by omega
  have e4 : r.y + r.h - (r.y + r.h / 2) = r.h - r.h / 2 := by omega
  simp only [e1, e2, e3, e4, quad1, quad2, quad3, quad4]

theorem mergeStep_none (Q : Quadtree) (r : Rect) (f : Image)
    (o1 o2 o3 o4 : Option LeafData)
    (h : o1 = none ∨ o2 = none ∨ o3 = none ∨ o4 = none) :
    mergeStep Q r f o1 o2 o3 o4 = (renderPending Q f [o1, o2, o3, o4], none) := by
  cases o1 <;> cases o2 <;> cases o3 <;> cases o4 <;>
    first
    | rfl
    | (exfalso; simp at h)

theorem processRect_pending (Q : Quadtree) :
    ∀ fuel f r f2 l, processRect Q fuel f r = (f2, some l) → f2 = f ∧ l.bounds = r := by
  intro fuel
  induction fuel with
  | zero =>
    intro f r f2 l h
    simp [processRect] at h
  | succ fuel ih =>
    intro f r f2 l h
    by_cases hb : r.w ≤ Q.params.minSize ∨ r.h ≤ Q.params.minSize
    · rw [processRect] at h
      rw [if_pos hb] at h
      obtain ⟨h1, h2⟩ := Prod.mk.injEq .. ▸ h
      exact ⟨h1.symm, by injection h2.symm with h3; rw [h3]⟩
    · rw [processRect_succ Q fuel f r hb] at h
      cases e1 : (processRect Q fuel f (quad1 r)).2 with
      | none => rw [mergeStep_none Q r _ _ _ _ _ (Or.inl e1)] at h; simp at h
      | some l1 =>
        cases e2 : (processRect Q fuel (processRect Q fuel f (quad1 r)).1 (quad2 r)).2 with
        | none => rw [mergeStep_none Q r _ _ _ _ _ (Or.inr (Or.inl e2))] at h; simp at h
        | some l2 =>
          cases e3 : (processRect Q fuel
              (processRect Q fuel (processRect Q fuel f (quad1 r)).1 (quad2 r)).1
              (quad3 r)).2 with
          | none =>
            rw [mergeStep_none Q r _ _ _ _ _ (Or.inr (Or.inr (Or.inl e3)))] at h
            simp at h
          | some l3 =>
            cases e4 : (processRect Q fuel
                (processRect Q fuel
                  (processRect Q fuel (processRect Q fuel f (quad1 r)).1 (quad2 r)).1
                  (quad3 r)).1
                (quad4 r)).2 with
            | none =>
              rw [mergeStep_none Q r _ _ _ _ _ (Or.inr (Or.inr (Or.inr e4)))] at h
              simp at h
            | some l4 =>
              rw [e1, e2, e3, e4] at h
              simp only [mergeStep] at h
              by_cases hmerge : (Q.checker.Merge l1.color l2.color l3.color l4.color).1
              · rw [if_pos hmerge] at h
                have hf1 : (processRect Q fuel f (quad1 r)).1 = f :=
                  (ih f (quad1 r) _ l1 (by rw [← e1])).1
                have hf2 : (processRect Q fuel (processRect Q fuel f (quad1 r)).1
                    (quad2 r)).1 = (processRect Q fuel f (quad1 r)).1 :=
                  (ih _ (quad2 r) _ l2 (by rw [← e2])).1
                have hf3 : (processRect Q fuel
                    (processRect Q fuel (processRect Q fuel f (quad1 r)).1 (quad2 r)).1
                    (quad3 r)).1
                    = (processRect Q fuel (processRect Q fuel f (quad1 r)).1 (quad2 r)).1 :=
                  (ih _ (quad3 r) _ l3 (by rw [← e3])).1
                have hf4 : (processRect Q fuel
                    (processRect Q fuel
                      (processRect Q fuel (processRect Q fuel f (quad1 r)).1 (quad2 r)).1
                      (quad3 r)).1
                    (quad4 r)).1
                    = (processRect Q fuel
                      (processRect Q fuel (processRect Q fuel f (quad1 r)).1 (quad2 r)).1
                      (quad3 r)).1 :=
                  (ih _ (quad4 r) _ l4 (by rw [← e4])).1
                obtain ⟨hA, hB⟩ := Prod.mk.injEq .. ▸ h
                refine ⟨?_, ?_⟩
                · rw [← hA, hf4, hf3, hf2, hf1]
                · injection hB.symm with hB2
                  rw [hB2]
              · rw [if_neg hmerge] at h
                simp at h

/-! ## C1: merge-on-unwind decision -/

/-- C1: in the recursive `Quadtree::ProcessFrame(Image&, Rect)` above the
leaf base case, with the four quadrant calls threaded left to right:
if all four return pending leaves, the policy's `Merge` is consulted on
their four colours — on approval the call returns the *unchanged* frame
(pending children never rendered anything, by `processRect_pending`)
together with a single pending leaf carrying the merged colour and the
parent's bounds; on refusal, or when some quadrant came back
already-rendered (`none`), every pending child is rendered in order via
`RenderLeaf` (background fill + tinted child-sized sprite composite at the
child's offset) and the call returns already-rendered (`none`). -/
theorem claim_C1_merge_decision (Q : Quadtree) (fuel : ℕ) (f : Image) (r : Rect)
    (hw : Q.params.minSize < r.w) (hh : Q.params.minSize < r.h) :
    (∀ f1 f2 f3 f4 l1 l2 l3 l4,
      processRect Q fuel f (quad1 r) = (f1, some l1) →
      processRect Q fuel f1 (quad2 r) = (f2, some l2) →
      processRect Q fuel f2 (quad3 r) = (f3, some l3) →
      processRect Q fuel f3 (quad4 r) = (f4, some l4) →
      f4 = f ∧
      processRect Q (fuel + 1) f r =
        (if (Q.checker.Merge l1.color l2.color l3.color l4.color).1 then
          (f, some ⟨(Q.checker.Merge l1.color l2.color l3.color l4.color).2, r⟩)
        else (renderPending Q f [some l1, some l2, some l3, some l4], none))) ∧
    (∀ f1 f2 f3 f4 o1 o2 o3 o4,
      processRect Q fuel f (quad1 r) = (f1, o1) →
      processRect Q fuel f1 (quad2 r) = (f2, o2) →
      processRect Q fuel f2 (quad3 r) = (f3, o3) →
      processRect Q fuel f3 (quad4 r) = (f4, o4) →
      (o1 = none ∨ o2 = none ∨ o3 = none ∨ o4 = none) →
      processRect Q (fuel + 1) f r = (renderPending Q f4 [o1, o2, o3, o4], none)) := by
  have hb : ¬ (r.w ≤ Q.params.minSize ∨ r.h ≤ Q.params.minSize) := by omega
  constructor
  · intro f1 f2 f3 f4 l1 l2 l3 l4 h1 h2 h3 h4
    have e1 : f1 = f := (processRect_pending Q fuel f (quad1 r) f1 l1 h1).1
    have e2 : f2 = f1 := (processRect_pending Q fuel f1 (quad2 r) f2 l2 h2).1
    have e3 : f3 = f2 := (processRect_pending Q fuel f2 (quad3 r) f3 l3 h3).1
    have e4 : f4 = f3 := (processRect_pending Q fuel f3 (quad4 r) f4 l4 h4).1
    refine ⟨by rw [e4, e3, e2, e1], ?_⟩
    rw [processRect_succ Q fuel f r hb]
    simp only [h1, h2, h3, h4, mergeStep]
    simp only [e4, e3, e2, e1]
  · intro f1 f2 f3 f4 o1 o2 o3 o4 h1 h2 h3 h4 hnone
    rw [processRect_succ Q fuel f r hb]
    simp only [h1, h2, h3, h4]
    exact mergeStep_none Q r f4 o1 o2 o3 o4 hnone

/-- Witness for C1 on the toy engine: a 2×2 region over `minSize = 1`
whose four 1×1 quadrants all come back pending; the toy `Merge` approves,
so the call propagates a single pending leaf with the parent bounds and
the frame is untouched. -/
theorem claim_C1_witness :
    toyQuadtree.params.minSize < 2 ∧
    processRect toyQuadtree 2 frameTwo ⟨0, 0, 2, 2⟩ =
      (frameTwo, some ⟨⟨1, 2, 3⟩, ⟨0, 0, 2, 2⟩⟩) := by
  refine ⟨by decide, ?_⟩
  exact ((claim_C1_merge_decision toyQuadtree 1 frameTwo ⟨0, 0, 2, 2⟩ (by decide)
      (by decide)).1
    frameTwo frameTwo frameTwo frameTwo
    ⟨⟨1, 2, 3⟩, quad1 ⟨0, 0, 2, 2⟩⟩ ⟨⟨1, 2, 3⟩, quad2 ⟨0, 0, 2, 2⟩⟩
    ⟨⟨1, 2, 3⟩, quad3 ⟨0, 0, 2, 2⟩⟩ ⟨⟨1, 2, 3⟩, quad4 ⟨0, 0, 2, 2⟩⟩
    rfl rfl rfl rfl).2

/-! ## C10: the decomposition preserves the frame geometry -/

theorem renderPending_dims (Q : Quadtree) :
    ∀ (rs : List (Option LeafData)) (f : Image),
      (renderPending Q f rs).width = f.width ∧
      (renderPending Q f rs).height = f.height ∧
      (renderPending Q f rs).channels = f.channels := by
  intro rs
  induction rs with
  | nil => intro f; exact ⟨rfl, rfl, rfl⟩
  | cons o tl ih =>
    intro f
    cases o with
    | none => exact ih f
    | some l => exact ih (Q.RenderLeaf f l)

theorem mergeStep_dims (Q : Quadtree) (r : Rect) (f : Image)
    (o1 o2 o3 o4 : Option LeafData) :
    ((mergeStep Q r f o1 o2 o3 o4).1).width = f.width ∧
    ((mergeStep Q r f o1 o2 o3 o4).1).height = f.height ∧
    ((mergeStep Q r f o1 o2 o3 o4).1).channels = f.channels := by
  cases o1 <;> cases o2 <;> cases o3 <;> cases o4 <;>
    try exact renderPending_dims Q _ f
  simp only [mergeStep]
  split_ifs with hm
  · exact ⟨rfl, rfl, rfl⟩
  · exact renderPending_dims Q _ f

theorem processRect_dims (Q : Quadtree) :
    ∀ fuel (f : Image) (r : Rect),
      ((processRect Q fuel f r).1).width = f.width ∧
      ((processRect Q fuel f r).1).height = f.height ∧
      ((processRect Q fuel f r).1).channels = f.channels := by
  intro fuel
  induction fuel with
  | zero => intro f r; exact ⟨rfl, rfl, rfl⟩
  | succ fuel ih =>
    intro f r
    by_cases hb : r.w ≤ Q.params.minSize ∨ r.h ≤ Q.params.minSize
    · rw [processRect, if_pos hb]
      exact ⟨rfl, rfl, rfl⟩
    · rw [processRect_succ Q fuel f r hb]
      obtain ⟨mw, mh, mc⟩ := mergeStep_dims Q r
        (processRect Q fuel
          (processRect Q fuel
            (processRect Q fuel (processRect Q fuel f (quad1 r)).1 (quad2 r)).1
            (quad3 r)).1
          (quad4 r)).1
        (processRect Q fuel f (quad1 r)).2
        (processRect Q fuel (processRect Q fuel f (quad1 r)).1 (quad2 r)).2
        (processRect Q fuel
          (processRect Q fuel (processRect Q fuel f (quad1 r)).1 (quad2 r)).1
          (quad3 r)).2
        (processRect Q fuel
          (processRect Q fuel
            (processRect Q fuel (processRect Q fuel f (quad1 r)).1 (quad2 r)).1
            (quad3 r)).1
          (quad4 r)).2
      obtain ⟨w1, h1, c1⟩ := ih f (quad1 r)
      obtain ⟨w2, h2, c2⟩ := ih (processRect Q fuel f (quad1 r)).1 (quad2 r)
      obtain ⟨w3, h3, c3⟩ := ih
        (processRect Q fuel (processRect Q fuel f (quad1 r)).1 (quad2 r)).1 (quad3 r)
      obtain ⟨w4, h4, c4⟩ := ih
        (processRect Q fuel
          (processRect Q fuel (processRect Q fuel f (quad1 r)).1 (quad2 r)).1
          (quad3 r)).1
        (quad4 r)
      exact ⟨mw.trans (w4.trans (w3.trans (w2.trans w1))),
        mh.trans (h4.trans (h3.trans (h2.trans h1))),
        mc.trans (c4.trans (c3.trans (c2.trans c1)))⟩

theorem tileBody_dims (Q : Quadtree) (f : Image) (R : Rect) (fuel : ℕ) :
    ((match (processRect Q fuel f R).2 with
      | some l => Q.RenderLeaf (processRect Q fuel f R).1 l
      | none => (processRect Q fuel f R).1).width = f.width) ∧
    ((match (processRect Q fuel f R).2 with
      | some l => Q.RenderLeaf (processRect Q fuel f R).1 l
      | none => (processRect Q fuel f R).1).height = f.height) ∧
    ((match (processRect Q fuel f R).2 with
      | some l => Q.RenderLeaf (processRect Q fuel f R).1 l
      | none => (processRect Q fuel f R).1).channels = f.channels) := by
  obtain ⟨pw, ph, pc⟩ := processRect_dims Q fuel f R
  cases hp : (processRect Q fuel f R).2 with
  | none => simp only [hp]; exact ⟨pw, ph, pc⟩
  | some l => simp only [hp]; exact ⟨pw, ph, pc⟩

theorem foldl_tiles_dims (Q : Quadtree) (B : Image → ℕ × ℕ → Image)
    (hB : ∀ (f : Image) (t : ℕ × ℕ),
      (B f t).width = f.width ∧ (B f t).height = f.height ∧ (B f t).channels = f.channels) :
    ∀ (tiles : List (ℕ × ℕ)) (f : Image),
      (tiles.foldl B f).width = f.width ∧ (tiles.foldl B f).height = f.height ∧
        (tiles.foldl B f).channels = f.channels := by
  intro tiles
  induction tiles with
  | nil => intro f; exact ⟨rfl, rfl, rfl⟩
  | cons t tl ih =>
    intro f
    rw [List.foldl_cons]
    obtain ⟨iw, ihh, ic⟩ := ih (B f t)
    obtain ⟨bw, bh, bc⟩ := hB f t
    exact ⟨iw.trans bw, ihh.trans bh, ic.trans bc⟩

/-- C10: the image returned by the decomposition entry point
`Quadtree::ProcessFrame(Image)` has exactly the width, height and channel
count of the input frame — every rendering step (`rect` background fills
and `overlay` sprite composites, both clipped to the surface) only
rewrites pixel contents. -/
theorem claim_C10_frame_geometry (Q : Quadtree) (frame : Image) :
    (Q.ProcessFrame frame).width = frame.width ∧
    (Q.ProcessFrame frame).height = frame.height ∧
    (Q.ProcessFrame frame).channels = frame.channels := by
  rw [Quadtree.ProcessFrame]
  exact foldl_tiles_dims Q _ (fun f t => tileBody_dims Q f _ _) _ frame

/-! ## C9: termination of the recursive decomposition -/

theorem quad_halving (m d w : ℕ) (h : w ≤ m * 2 ^ (d + 1)) :
    w / 2 ≤ m * 2 ^ d ∧ w - w / 2 ≤ m * 2 ^ d := by
  have h2 : m * 2 ^ (d + 1) = 2 * (m * 2 ^ d) := by ring
  omega

theorem processRect_fuel_stable (Q : Quadtree) (hm : 1 ≤ Q.params.minSize) :
    ∀ d (f : Image) (r : Rect),
      r.w ≤ Q.params.minSize * 2 ^ d → r.h ≤ Q.params.minSize * 2 ^ d →
      ∀ g, d + 1 ≤ g → processRect Q g f r = processRect Q (d + 1) f r := by
  intro d
  induction d with
  | zero =>
    intro f r hw hh g hg
    obtain ⟨g1, rfl⟩ : ∃ g1, g = g1 + 1 := ⟨g - 1, by omega⟩
    have hb : r.w ≤ Q.params.minSize ∨ r.h ≤ Q.params.minSize := by
      left
      simpa using hw
    rw [processRect, if_pos hb, processRect, if_pos hb]
  | succ d ih =>
    intro f r hw hh g hg
    obtain ⟨g1, hg1, rfl⟩ : ∃ g1, d + 1 ≤ g1 ∧ g = g1 + 1 :=
      ⟨g - 1, by omega, by omega⟩
    by_cases hb : r.w ≤ Q.params.minSize ∨ r.h ≤ Q.params.minSize
    · rw [processRect, if_pos hb, processRect, if_pos hb]
    · rw [processRect_succ Q g1 f r hb, processRect_succ Q (d + 1) f r hb]
      have hwq := quad_halving Q.params.minSize d r.w hw
      have hhq := quad_halving Q.params.minSize d r.h hh
      have e1 : processRect Q g1 f (quad1 r) = processRect Q (d + 1) f (quad1 r) :=
        ih f (quad1 r) hwq.1 hhq.1 g1 hg1
      rw [e1]
      have e2 : processRect Q g1 (processRect Q (d + 1) f (quad1 r)).1 (quad2 r)
          = processRect Q (d + 1) (processRect Q (d + 1) f (quad1 r)).1 (quad2 r) :=
        ih _ (quad2 r) hwq.2 hhq.1 g1 hg1
      rw [e2]
      have e3 : processRect Q g1
            (processRect Q (d + 1) (processRect Q (d + 1) f (quad1 r)).1 (quad2 r)).1
            (quad3 r)
          = processRect Q (d + 1)
            (processRect Q (d + 1) (processRect Q (d + 1) f (quad1 r)).1 (quad2 r)).1
            (quad3 r) :=
        ih _ (quad3 r) hwq.1 hhq.2 g1 hg1
      rw [e3]
      have e4 : processRect Q g1
            (processRect Q (d + 1)
              (processRect Q (d + 1) (processRect Q (d + 1) f (quad1 r)).1 (quad2 r)).1
              (quad3 r)).1
            (quad4 r)
          = processRect Q (d + 1)
            (processRect Q (d + 1)
              (processRect Q (d + 1) (processRect Q (d + 1) f (quad1 r)).1 (quad2 r)).1
              (quad3 r)).1
            (quad4 r) :=
        ih _ (quad4 r) hwq.2 hhq.2 g1 hg1
      rw [e4]

/-- C9: for `minSize ≥ 1` the recursion of `ProcessFrame(Image&, Rect)`
terminates on every positive rectangle: whenever a region recurses, all
four quadrants are strictly smaller in both extents, and any recursion
budget above `d + 1` with `max(w, h) ≤ minSize · 2^d` — i.e. depth
logarithmic in the frame size over `minSize` — yields the identical
result, the leaf base case having been reached on every path. -/
theorem claim_C9_termination (Q : Quadtree) (hm : 1 ≤ Q.params.minSize) :
    (∀ r : Rect, Q.params.minSize < r.w → Q.params.minSize < r.h →
      (quad1 r).w < r.w ∧ (quad1 r).h < r.h ∧ (quad2 r).w < r.w ∧ (quad2 r).h < r.h ∧
      (quad3 r).w < r.w ∧ (quad3 r).h < r.h ∧ (quad4 r).w < r.w ∧ (quad4 r).h < r.h) ∧
    (∀ d (f : Image) (r : Rect),
      r.w ≤ Q.params.minSize * 2 ^ d → r.h ≤ Q.params.minSize * 2 ^ d →
      ∀ g, d + 1 ≤ g → processRect Q g f r = processRect Q (d + 1) f r) := by
  constructor
  · intro r hwlt hhlt
    simp only [quad1, quad2, quad3, quad4]
    omega
  · exact processRect_fuel_stable Q hm

/-- Witness for C9: a 4×4 region over `minSize = 1` (`d = 2`) gives the
same decomposition with any budget of at least 3. -/
theorem claim_C9_witness :
    (1 ≤ toyQuadtree.params.minSize ∧ (4 : ℕ) ≤ toyQuadtree.params.minSize * 2 ^ 2) ∧
    processRect toyQuadtree 7 frameFour ⟨0, 0, 4, 4⟩ =
      processRect toyQuadtree 3 frameFour ⟨0, 0, 4, 4⟩ :=
  ⟨⟨by decide, by decide⟩,
    (claim_C9_termination toyQuadtree (by decide)).2 2 frameFour ⟨0, 0, 4, 4⟩
      (by decide) (by decide) 7 (by decide)⟩

/-! ## C3: pixel accesses during `ProcessFrame` -/

/-- C3 (code bug, evaluated at the failing input): with the 1×2 leaf
template `leafTall` and a 60×96 frame, `GetBestSplitCount` picks the
*horizontal* axis (`w > h·leafAR`, since `96 · (1/2) = 48 < 60`) with
`splitCount = 1` (`bestAR = 60/48 = 1.25`), but the loop in
`Quadtree::ProcessFrame` distributes `std::max(bounds.w, bounds.h) = 96`
along that axis, so the single tile is `{0, 0, 96, 96}` — 96 pixels wide
on a 60-pixel-wide frame.  Its quadtree decomposition (`minSize = 8`)
bottoms out at, among others, the region `{90, 90, 6, 6}`, on which
`GetColor` reads `frame.pixel(x, y)` for `x ∈ [90, 96)`, outside the
frame's `[0, 60)` — contradicting the spec's in-bounds invariant.  (All
the `double` arithmetic involved is dyadic, so IEEE evaluation agrees with
the `ℚ` model.) -/
theorem claim_C3_out_of_bounds :
    getBestSplitCount leafTall ⟨0, 0, 60, 96⟩ = (1, true) ∧
    splitTiles (max 60 96) 1 = [(0, 96)] ∧
    (⟨90, 90, 6, 6⟩ : Rect) ∈ leafRects 8 8 ⟨0, 0, 96, 96⟩ ∧
    60 < 90 + 6 := by
  refine ⟨?_, by decide, by decide, by decide⟩
  simp only [getBestSplitCount, leafTall]
  norm_num

/-! ## C6: `QuadtreeBuilder` lifecycle -/

theorem filterCount_eq_sum (n : ℕ) (mk : ℕ → BEvent) (sel : BEvent → Bool)
    (hmk : ∀ t, sel (mk t) = true)
    (hsel : ∀ e, sel e = true → ∃ t, e = mk t)
    (hinj : ∀ t1 t2, mk t1 = mk t2 → t1 = t2)
    (htask : ∀ t, eventOk n (mk t) = true → t < n) :
    ∀ p : List BEvent, (∀ e ∈ p, eventOk n e = true) →
      (p.filter sel).length = ∑ t ∈ Finset.range n, p.count (mk t) := by
  intro p
  induction p with
  | nil => intro h; simp
  | cons e tl ih =>
    intro h
    have htl := ih (fun x hx => h x (List.mem_cons_of_mem e hx))
    by_cases hse : sel e = true
    · obtain ⟨t0, rfl⟩ := hsel e hse
      have ht0 : t0 < n := htask t0 (h (mk t0) (List.mem_cons_self _ _))
      rw [List.filter_cons_of_pos hse, List.length_cons, htl]
      have hcnt : ∀ t, (mk t0 :: tl).count (mk t)
          = tl.count (mk t) + if t0 = t then 1 else 0 := by
        intro t
        rw [List.count_cons]
        congr 1
        by_cases he : t0 = t
        · subst he; simp
        · have hne : ¬ ((mk t0 == mk t) = true) := by
            simp only [beq_iff_eq]
            intro hc
            exact he (hinj _ _ hc)
          simp [hne, he]
      rw [Finset.sum_congr rfl fun t _ => hcnt t, Finset.sum_add_distrib,
        Finset.sum_ite_eq (Finset.range n) t0 (fun _ => 1),
        if_pos (Finset.mem_range.mpr ht0)]
    · rw [List.filter_cons_of_neg hse, htl]
      have hcnt : ∀ t, (e :: tl).count (mk t) = tl.count (mk t) := by
        intro t
        rw [List.count_cons]
        have hne : ¬ ((e == mk t) = true) := by
          simp only [beq_iff_eq]
          intro hc
          rw [hc] at hse
          exact hse (hmk t)
        simp [hne]
      rw [Finset.sum_congr rfl fun t _ => hcnt t]

theorem totAdd_eq_sum (n : ℕ) (p : List BEvent) (h : ∀ e ∈ p, eventOk n e = true) :
    totAdd p = ∑ t ∈ Finset.range n, addCnt t p := by
  refine filterCount_eq_sum n BEvent.addUse isAdd (fun t => rfl) ?_ ?_ ?_ p h
  · intro e he
    cases e with
    | addUse t => exact ⟨t, rfl⟩
    | getTree t => simp [isAdd] at he
    | release t => simp [isAdd] at he
    | allowRelease => simp [isAdd] at he
  · intro t1 t2 hc
    injection hc
  · intro t he
    simpa [eventOk] using he

theorem totRel_eq_sum (n : ℕ) (p : List BEvent) (h : ∀ e ∈ p, eventOk n e = true) :
    totRel p = ∑ t ∈ Finset.range n, relCnt t p := by
  refine filterCount_eq_sum n BEvent.release isRel (fun t => rfl) ?_ ?_ ?_ p h
  · intro e he
    cases e with
    | addUse t => simp [isRel] at he
    | getTree t => simp [isRel] at he
    | release t => exact ⟨t, rfl⟩
    | allowRelease => simp [isRel] at he
  · intro t1 t2 hc
    injection hc
  · intro t he
    simpa [eventOk] using he

theorem total_rel_le_add (n : ℕ) (p : List BEvent) (hv : validTrace n p) :
    totRel p ≤ totAdd p := by
  rw [totRel_eq_sum n p hv.1, totAdd_eq_sum n p hv.1]
  apply Finset.sum_le_sum
  intro t ht
  have h3 := hv.2.2 p.length (le_refl _) t (Finset.mem_range.mp ht)
  rw [List.take_length] at h3
  exact h3.1.trans h3.2

theorem total_rel_lt_add (n : ℕ) (p : List BEvent) (hv : validTrace n p)
    (t0 : ℕ) (ht0 : t0 < n) (hg : 1 ≤ getCnt t0 p) (hr : relCnt t0 p = 0) :
    totRel p < totAdd p := by
  rw [totRel_eq_sum n p hv.1, totAdd_eq_sum n p hv.1]
  apply Finset.sum_lt_sum
  · intro t ht
    have h3 := hv.2.2 p.length (le_refl _) t (Finset.mem_range.mp ht)
    rw [List.take_length] at h3
    exact h3.1.trans h3.2
  · refine ⟨t0, Finset.mem_range.mpr ht0, ?_⟩
    have h3 := hv.2.2 p.length (le_refl _) t0 ht0
    rw [List.take_length] at h3
    have h4 : 1 ≤ addCnt t0 p := hg.trans h3.2
    omega

theorem validTrace_append (n : ℕ) (p q : List BEvent) (hv : validTrace n (p ++ q)) :
    validTrace n p := by
  obtain ⟨h1, h2, h3⟩ := hv
  refine ⟨fun e he => h1 e (List.mem_append_left q he), ?_, ?_⟩
  · intro t ht
    have hc : addCnt t (p ++ q) = addCnt t p + addCnt t q := by
      rw [addCnt, addCnt, addCnt, List.count_append]
    have := h2 t ht
    omega
  · intro k hk t ht
    have hk2 : k ≤ (p ++ q).length := by
      rw [List.length_append]
      omega
    have := h3 k hk2 t ht
    rwa [List.take_append_of_le_length hk] at this

theorem applyOp_addUse (s : BState) (t : ℕ) :
    applyOp s (BEvent.addUse t) =
      if s.allowRelease = true ∧ s.useCount + 1 ≤ s.uses then
        ⟨s.useCount + 1, s.uses, s.allowRelease, false⟩
      else ⟨s.useCount + 1, s.uses, s.allowRelease, s.built⟩ := by
  show releaseImpl ⟨s.useCount + 1, s.uses, s.allowRelease, s.built⟩ = _
  rw [releaseImpl]

theorem applyOp_release (s : BState) (t : ℕ) :
    applyOp s (BEvent.release t) =
      if s.allowRelease = true ∧ s.useCount ≤ s.uses + 1 then
        ⟨s.useCount, s.uses + 1, s.allowRelease, false⟩
      else ⟨s.useCount, s.uses + 1, s.allowRelease, s.built⟩ := by
  show releaseImpl ⟨s.useCount, s.uses + 1, s.allowRelease, s.built⟩ = _
  rw [releaseImpl]

theorem applyOp_allow (s : BState) :
    applyOp s BEvent.allowRelease =
      if s.useCount ≤ s.uses then ⟨s.useCount, s.uses, true, false⟩
      else ⟨s.useCount, s.uses, true, s.built⟩ := by
  show releaseImpl ⟨s.useCount, s.uses, true, s.built⟩ = _
  rw [releaseImpl]
  simp

theorem applyOp_getTree (s : BState) (t : ℕ) :
    applyOp s (BEvent.getTree t) =
      if s.built = true then s else ⟨s.useCount, 0, s.allowRelease, true⟩ := by
  show (if s.built = true then s else _) = _
  rfl

theorem execB_append (p : List BEvent) (e : BEvent) :
    execB (p ++ [e]) = applyOp (execB p) e := by
  rw [execB, execB, List.foldl_append]
  rfl

theorem destroysFrom_append (s : BState) (p : List BEvent) (e : BEvent) :
    destroysFrom s (p ++ [e])
      = destroysFrom s p + (if destroyStep (p.foldl applyOp s) e then 1 else 0) := by
  induction p generalizing s with
  | nil => simp [destroysFrom]
  | cons a tl ih =>
    rw [List.cons_append, destroysFrom, destroysFrom, ih (applyOp s a), List.foldl_cons]
    omega

theorem destroys_append (p : List BEvent) (e : BEvent) :
    destroys (p ++ [e]) = destroys p + (if destroyStep (execB p) e then 1 else 0) :=
  destroysFrom_append initB p e

theorem totAdd_append_one (p : List BEvent) (e : BEvent) :
    totAdd (p ++ [e]) = totAdd p + (if isAdd e then 1 else 0) := by
  rw [totAdd, totAdd, List.filter_append, List.length_append]
  cases he : isAdd e <;> simp [List.filter, he]

theorem totRel_append_one (p : List BEvent) (e : BEvent) :
    totRel (p ++ [e]) = totRel p + (if isRel e then 1 else 0) := by
  rw [totRel, totRel, List.filter_append, List.length_append]
  cases he : isRel e <;> simp [List.filter, he]

theorem addCnt_pos_of_getCnt (n : ℕ) (p : List BEvent) (hv : validTrace n p)
    (t : ℕ) (ht : t < n) (hg : 1 ≤ getCnt t p) : 1 ≤ totAdd p := by
  have h3 := hv.2.2 p.length (le_refl _) t ht
  rw [List.take_length] at h3
  have hA : 1 ≤ addCnt t p := hg.trans h3.2
  rw [totAdd_eq_sum n p hv.1]
  calc 1 ≤ addCnt t p := hA
    _ ≤ ∑ t' ∈ Finset.range n, addCnt t' p :=
        Finset.single_le_sum (fun i _ => Nat.zero_le (addCnt i p))
          (Finset.mem_range.mpr ht)

theorem totAdd_addUse (p : List BEvent) (t : ℕ) :
    totAdd (p ++ [BEvent.addUse t]) = totAdd p + 1 := by
  simp [totAdd_append_one, isAdd]

theorem totAdd_getTree (p : List BEvent) (t : ℕ) :
    totAdd (p ++ [BEvent.getTree t]) = totAdd p := by
  simp [totAdd_append_one, isAdd]

theorem totAdd_release (p : List BEvent) (t : ℕ) :
    totAdd (p ++ [BEvent.release t]) = totAdd p := by
  simp [totAdd_append_one, isAdd]

theorem totAdd_allow (p : List BEvent) :
    totAdd (p ++ [BEvent.allowRelease]) = totAdd p := by
  simp [totAdd_append_one, isAdd]

theorem totRel_addUse (p : List BEvent) (t : ℕ) :
    totRel (p ++ [BEvent.addUse t]) = totRel p := by
  simp [totRel_append_one, isRel]

theorem totRel_getTree (p : List BEvent) (t : ℕ) :
    totRel (p ++ [BEvent.getTree t]) = totRel p := by
  simp [totRel_append_one, isRel]

theorem totRel_release (p : List BEvent) (t : ℕ) :
    totRel (p ++ [BEvent.release t]) = totRel p + 1 := by
  simp [totRel_append_one, isRel]

theorem totRel_allow (p : List BEvent) :
    totRel (p ++ [BEvent.allowRelease]) = totRel p := by
  simp [totRel_append_one, isRel]

theorem execB_invariant (n : ℕ) :
    ∀ p : List BEvent, validTrace n p →
      (execB p).useCount = totAdd p ∧
      (∃ W, (execB p).uses + W = totRel p ∧
        (1 ≤ destroys p → (execB p).built = true → 1 ≤ W)) ∧
      ((execB p).built = true → 1 ≤ totAdd p) ∧
      (1 ≤ destroys p → 1 ≤ totRel p) ∧
      destroys p ≤ 1 := by
  intro p
  induction p using List.reverseRecOn with
  | nil =>
    intro hv
    exact ⟨rfl, ⟨0, rfl, fun hd _ => by simp [destroys, destroysFrom] at hd⟩,
      fun hb => by simp [execB, initB] at hb,
      fun hd => by simp [destroys, destroysFrom] at hd,
      by simp [destroys, destroysFrom]⟩
  | append_singleton p e ih =>
    intro hv
    have hvp : validTrace n p := validTrace_append n p [e] hv
    obtain ⟨IH1, ⟨W, IHW, IHWc⟩, IH3, IH4, IH5⟩ := ih hvp
    have hF1p : totRel p ≤ totAdd p := total_rel_le_add n p hvp
    have hF1 : totRel (p ++ [e]) ≤ totAdd (p ++ [e]) := total_rel_le_add n (p ++ [e]) hv
    rw [execB_append, destroys_append]
    cases e with
    | addUse t =>
      rw [totAdd_addUse, totRel_addUse] at hF1 ⊢
      simp only [destroyStep, applyOp_addUse, apply_ite BState.built]
      by_cases hfire : (execB p).allowRelease = true ∧
          (execB p).useCount + 1 ≤ (execB p).uses
      · simp only [if_pos hfire, Bool.not_false, Bool.and_true]
        by_cases hbuilt : (execB p).built = true
        · simp only [hbuilt,
            if_true,
            show (if (true = true) then (1 : ℕ) else 0) = 1 from rfl]
          have hd0 : destroys p = 0 := by
            by_contra hne
            have hW1 := IHWc (by omega) hbuilt
            omega
          refine ⟨by omega, ⟨W, by omega, ?_⟩, ?_, ?_, by omega⟩
          · intro _ hb
            simp at hb
          · intro _
            omega
          · intro _
            have hA1 := IH3 hbuilt
            omega
        · have hb' : (execB p).built = false := by
            cases hbf : (execB p).built
            · rfl
            · exact absurd hbf hbuilt
          simp only [hb',
            show (if (false = true) then (1 : ℕ) else 0) = 0 from rfl]
          refine ⟨by omega, ⟨W, by omega, ?_⟩, ?_, ?_, by omega⟩
          · intro _ hb
            simp at hb
          · intro _
            omega
          · intro hd
            have := IH4 (by omega)
            omega
      · simp only [if_neg hfire]
        have hnod : ((execB p).built && !(execB p).built) = false := by
          cases (execB p).built <;> rfl
        simp only [hnod,
          show (if (false = true) then (1 : ℕ) else 0) = 0 from rfl]
        refine ⟨by omega, ⟨W, by omega, ?_⟩, ?_, ?_, by omega⟩
        · intro hd hb
          exact IHWc (by omega) hb
        · intro hb
          have := IH3 hb
          omega
        · intro hd
          have := IH4 (by omega)
          omega
    | release t =>
      rw [totAdd_release, totRel_release] at hF1 ⊢
      simp only [destroyStep, applyOp_release, apply_ite BState.built]
      by_cases hfire : (execB p).allowRelease = true ∧
          (execB p).useCount ≤ (execB p).uses + 1
      · simp only [if_pos hfire, Bool.not_false, Bool.and_true]
        by_cases hbuilt : (execB p).built = true
        · simp only [hbuilt,
            if_true,
            show (if (true = true) then (1 : ℕ) else 0) = 1 from rfl]
          have hd0 : destroys p = 0 := by
            by_contra hne
            have hW1 := IHWc (by omega) hbuilt
            omega
          refine ⟨by omega, ⟨W, by omega, ?_⟩, ?_, ?_, by omega⟩
          · intro _ hb
            simp at hb
          · intro _
            omega
          · intro _
            omega
        · have hb' : (execB p).built = false := by
            cases hbf : (execB p).built
            · rfl
            · exact absurd hbf hbuilt
          simp only [hb',
            show (if (false = true) then (1 : ℕ) else 0) = 0 from rfl]
          refine ⟨by omega, ⟨W, by omega, ?_⟩, ?_, ?_, by omega⟩
          · intro _ hb
            simp at hb
          · intro _
            omega
          · intro _
            omega
      · simp only [if_neg hfire]
        have hnod : ((execB p).built && !(execB p).built) = false := by
          cases (execB p).built <;> rfl
        simp only [hnod,
          show (if (false = true) then (1 : ℕ) else 0) = 0 from rfl]
        refine ⟨by omega, ⟨W, by omega, ?_⟩, ?_, ?_, by omega⟩
        · intro hd hb
          exact IHWc (by omega) hb
        · intro hb
          have := IH3 hb
          omega
        · intro _
          omega
    | getTree t =>
      rw [totAdd_getTree, totRel_getTree] at hF1 ⊢
      simp only [destroyStep, applyOp_getTree, apply_ite BState.built]
      by_cases hbuilt : (execB p).built = true
      · simp only [if_pos hbuilt]
        have hnod : ((execB p).built && !(execB p).built) = false := by
          cases (execB p).built <;> rfl
        simp only [hnod,
          show (if (false = true) then (1 : ℕ) else 0) = 0 from rfl]
        refine ⟨by omega, ⟨W, by omega, ?_⟩, ?_, ?_, by omega⟩
        · intro hd hb
          exact IHWc (by omega) hb
        · intro hb
          have := IH3 hb
          omega
        · intro hd
          have := IH4 (by omega)
          omega
      · simp only [if_neg hbuilt]
        have hb' : (execB p).built = false := by
          cases hbf : (execB p).built
          · rfl
          · exact absurd hbf hbuilt
        have hnod : ((execB p).built &&
            !(⟨(execB p).useCount, 0, (execB p).allowRelease, true⟩ : BState).built)
            = false := by
          rw [hb']
          rfl
        simp only [hnod,
          show (if (false = true) then (1 : ℕ) else 0) = 0 from rfl]
        have htn : t < n := by
          have := hv.1 (BEvent.getTree t)
            (List.mem_append_right p (List.mem_singleton_self _))
          simpa [eventOk] using this
        have hget : 1 ≤ getCnt t (p ++ [BEvent.getTree t]) := by
          rw [getCnt, List.count_append]
          have hone : List.count (BEvent.getTree t) [BEvent.getTree t] = 1 := by
            simp
          omega
        have hA1 : 1 ≤ totAdd (p ++ [BEvent.getTree t]) :=
          addCnt_pos_of_getCnt n (p ++ [BEvent.getTree t]) hv t htn hget
        rw [totAdd_getTree] at hA1
        refine ⟨by omega, ⟨totRel p, by omega, ?_⟩, ?_, ?_, by omega⟩
        · intro hd _
          have := IH4 (by omega)
          omega
        · intro _
          omega
        · intro hd
          have := IH4 (by omega)
          omega
    | allowRelease =>
      rw [totAdd_allow, totRel_allow] at hF1 ⊢
      simp only [destroyStep, applyOp_allow, apply_ite BState.built]
      by_cases hfire : (execB p).useCount ≤ (execB p).uses
      · simp only [if_pos hfire, Bool.not_false, Bool.and_true]
        by_cases hbuilt : (execB p).built = true
        · simp only [hbuilt,
            if_true,
            show (if (true = true) then (1 : ℕ) else 0) = 1 from rfl]
          have hA1 := IH3 hbuilt
          have hd0 : destroys p = 0 := by
            by_contra hne
            have hW1 := IHWc (by omega) hbuilt
            omega
          refine ⟨by omega, ⟨W, by omega, ?_⟩, ?_, ?_, by omega⟩
          · intro _ hb
            simp at hb
          · intro _
            omega
          · intro _
            omega
        · have hb' : (execB p).built = false := by
            cases hbf : (execB p).built
            · rfl
            · exact absurd hbf hbuilt
          simp only [hb',
            show (if (false = true) then (1 : ℕ) else 0) = 0 from rfl]
          refine ⟨by omega, ⟨W, by omega, ?_⟩, ?_, ?_, by omega⟩
          · intro _ hb
            simp at hb
          · intro hb
            simp at hb
          · intro hd
            have := IH4 (by omega)
            omega
      · simp only [if_neg hfire]
        have hnod : ((execB p).built && !(execB p).built) = false := by
          cases (execB p).built <;> rfl
        simp only [hnod,
          show (if (false = true) then (1 : ℕ) else 0) = 0 from rfl]
        refine ⟨by omega, ⟨W, by omega, ?_⟩, ?_, ?_, by omega⟩
        · intro hd hb
          exact IHWc (by omega) hb
        · intro hb
          have := IH3 hb
          omega
        · intro hd
          have := IH4 (by omega)
          omega

theorem band_not_self (b : Bool) : (b && !b) = false := by
  cases b <;> rfl

theorem destroyStep_guard (s : BState) (e : BEvent) (hd : destroyStep s e = true) :
    (applyOp s e).allowRelease = true ∧
    (applyOp s e).useCount ≤ (applyOp s e).uses := by
  cases e with
  | addUse t =>
    rw [destroyStep, applyOp_addUse] at hd
    by_cases hfire : s.allowRelease = true ∧ s.useCount + 1 ≤ s.uses
    · rw [applyOp_addUse, if_pos hfire]
      exact ⟨hfire.1, hfire.2⟩
    · exfalso
      rw [if_neg hfire] at hd
      simp at hd
  | getTree t =>
    exfalso
    rw [destroyStep, applyOp_getTree] at hd
    by_cases hb : s.built = true
    · rw [if_pos hb] at hd
      simp at hd
    · rw [if_neg hb] at hd
      simp at hd
  | release t =>
    rw [destroyStep, applyOp_release] at hd
    by_cases hfire : s.allowRelease = true ∧ s.useCount ≤ s.uses + 1
    · rw [applyOp_release, if_pos hfire]
      exact ⟨hfire.1, hfire.2⟩
    · exfalso
      rw [if_neg hfire] at hd
      simp at hd
  | allowRelease =>
    rw [destroyStep, applyOp_allow] at hd
    by_cases hfire : s.useCount ≤ s.uses
    · rw [applyOp_allow, if_pos hfire]
      exact ⟨rfl, hfire⟩
    · exfalso
      rw [if_neg hfire] at hd
      simp at hd

theorem no_destroy_while_holding (n : ℕ) (q : List BEvent) (e : BEvent)
    (hvq : validTrace n q) (hvq1 : validTrace n (q ++ [e]))
    (t : ℕ) (htn : t < n) (hg : 1 ≤ getCnt t q) (hr : relCnt t q = 0)
    (hne : e ≠ BEvent.release t) :
    destroyStep (execB q) e = false := by
  obtain ⟨I1, ⟨W, IW, _⟩, _, _, _⟩ := execB_invariant n q hvq
  have hlt : totRel q < totAdd q := total_rel_lt_add n q hvq t htn hg hr
  have huses : (execB q).uses < (execB q).useCount := by omega
  cases e with
  | addUse t2 =>
    rw [destroyStep, applyOp_addUse]
    have hfire : ¬ ((execB q).allowRelease = true ∧
        (execB q).useCount + 1 ≤ (execB q).uses) := by
      rintro ⟨_, h2⟩
      omega
    rw [if_neg hfire]
    exact band_not_self _
  | getTree t2 =>
    rw [destroyStep, applyOp_getTree]
    by_cases hb : (execB q).built = true
    · rw [if_pos hb]
      exact band_not_self _
    · have hb' : (execB q).built = false := by
        cases hbf : (execB q).built
        · rfl
        · exact absurd hbf hb
      rw [if_neg hb, hb']
      rfl
  | release t2 =>
    have ht2 : ¬ (t2 = t) := fun hEq => hne (by rw [hEq])
    have hg1 : 1 ≤ getCnt t (q ++ [BEvent.release t2]) := by
      rw [getCnt, List.count_append]
      have h0 : getCnt t q = List.count (BEvent.getTree t) q := rfl
      omega
    have hr1 : relCnt t (q ++ [BEvent.release t2]) = 0 := by
      rw [relCnt, List.count_append]
      have h0 : List.count (BEvent.release t) [BEvent.release t2] = 0 := by
        rw [List.count_cons, List.count_nil]
        simp [ht2]
      have h1 : relCnt t q = List.count (BEvent.release t) q := rfl
      omega
    have hlt1 : totRel (q ++ [BEvent.release t2]) < totAdd (q ++ [BEvent.release t2]) :=
      total_rel_lt_add n (q ++ [BEvent.release t2]) hvq1 t htn hg1 hr1
    rw [totRel_release, totAdd_release] at hlt1
    rw [destroyStep, applyOp_release]
    have hfire : ¬ ((execB q).allowRelease = true ∧
        (execB q).useCount ≤ (execB q).uses + 1) := by
      rintro ⟨_, h2⟩
      omega
    rw [if_neg hfire]
    exact band_not_self _
  | allowRelease =>
    rw [destroyStep, applyOp_allow]
    have hfire : ¬ (execB q).useCount ≤ (execB q).uses := by omega
    rw [if_neg hfire]
    exact band_not_self _

/-- C6: under the claimed usage discipline (each of `n` tasks performs
`AddUse` at most once and before its `GetTree`, and `Release` only after
its `GetTree`), along every operation history of `QuadtreeBuilder`:
the engine is destroyed at most once; a destroying step always lands in a
state with the `AllowRelease` signal given and `mUses ≥ mUseCount`; and no
destruction happens at any point where some task has performed `GetTree`
but not yet its `Release` (other than that task's own releasing step). -/
theorem claim_C6_builder_lifecycle (n : ℕ) (p : List BEvent) (hv : validTrace n p) :
    destroys p ≤ 1 ∧
    (∀ q e rest, p = q ++ e :: rest → destroyStep (execB q) e = true →
      (applyOp (execB q) e).allowRelease = true ∧
      (applyOp (execB q) e).useCount ≤ (applyOp (execB q) e).uses) ∧
    (∀ q e rest t, p = q ++ e :: rest → t < n → 1 ≤ getCnt t q → relCnt t q = 0 →
      e ≠ BEvent.release t → destroyStep (execB q) e = false) := by
  refine ⟨(execB_invariant n p hv).2.2.2.2, ?_, ?_⟩
  · intro q e rest hsplit hd
    exact destroyStep_guard (execB q) e hd
  · intro q e rest t hsplit htn hg hr hne
    have hv2 : validTrace n (q ++ [e]) := by
      refine validTrace_append n (q ++ [e]) rest ?_
      rw [List.append_assoc]
      rw [hsplit] at hv
      exact hv
    have hvq : validTrace n q := validTrace_append n q [e] hv2
    exact no_destroy_while_holding n q e hvq hv2 t htn hg hr hne

/-- Witness for C6: one task's full `AddUse; GetTree; Release` followed by
`AllowRelease` — the engine is torn down exactly once, at the final step,
in a state with the signal given and all uses completed. -/
theorem claim_C6_witness :
    (validTrace 1 simpleTrace ∧ destroys simpleTrace ≤ 1) ∧
    destroys simpleTrace = 1 ∧
    ((applyOp (execB [BEvent.addUse 0, BEvent.getTree 0, BEvent.release 0])
        BEvent.allowRelease).allowRelease = true ∧
      (applyOp (execB [BEvent.addUse 0, BEvent.getTree 0, BEvent.release 0])
        BEvent.allowRelease).useCount ≤
      (applyOp (execB [BEvent.addUse 0, BEvent.getTree 0, BEvent.release 0])
        BEvent.allowRelease).uses) := by
  refine ⟨⟨by decide, (claim_C6_builder_lifecycle 1 simpleTrace (by decide)).1⟩,
    by decide, ?_⟩
  exact (claim_C6_builder_lifecycle 1 simpleTrace (by decide)).2.1
    [BEvent.addUse 0, BEvent.getTree 0, BEvent.release 0] BEvent.allowRelease [] rfl
    (by decide)
